import Mathlib

/-!
# SimpleVirtualDOM: the reconciler of `src/patch.js`

A shallow embedding of `patch.js` and of the part of the DOM it drives.

* The host tree (the DOM) is a store of nodes addressed by handles, together
  with a log of the mutating calls made on it.  `document` is an HTML document:
  `createElement` and `setAttribute` throw `InvalidCharacterError` on a name
  that is not a name (`validName`, the production `Name` of XML) and keep the
  name they are given in ASCII lower case (`asciiLower`).
* A virtual node is a JavaScript object.  Its reference is kept as `oid`
  (`===` on two virtual nodes compares `oid`), the reference of a `children`
  array as the first component of `children`.
* The code writes only the `elm` field of virtual nodes of the new tree, so
  every function takes the new node (or the new child array) and hands back
  the updated one.  The old tree is read only; the embedding describes runs in
  which an object written through the new tree is not read through the old one.
  A tree value stands for a tree of objects when no object occurs in it twice
  (`distinctObjects`); the theorems on the first mount are stated for such
  trees.
* A JavaScript exception ends the run: functions return `Except Err _`.
* The `while` loop of `updateChildren` and the recursion between `patchVnode`
  and `updateChildren` are driven by a fuel argument; `Err.outOfFuel` is the
  answer of the model, not of the program, and an answer other than
  `outOfFuel` stays the same with more fuel (`fuel_step`).  One iteration of the
  loop is `whileStep`.
* `isUndef`, `isDef` and `isPrimitive` come from `./util`, which is not among
  the sources; where the code goes on to use the tested value, the test is
  written as a match on the optional value.
* A child array is a list of nodes: it has no absent entry.  The variables of
  the loop may still hold undefined, which is what a read outside the array
  gives; `LoopInv` says when they do not, `Loop.measure` and `weight` carry the
  termination proof.
* `copyOf` and `bindFrom` say what a copy of a tree is and what a patch against
  a copy is to return.
-/

namespace SimpleVirtualDOM

/-! ## The host tree -/

/-- What a host node is: a text node with its data, or an element with its
local name. -/
inductive HostKind where
  | text (data : String)
  | element (localName : String)
  deriving DecidableEq, Repr

/-- One node of the host tree. -/
structure HostNode where
  kind : HostKind
  attrs : List (String × String)
  children : List Nat
  parent : Option Nat
  deriving DecidableEq, Repr

/-- The mutating calls the reconciler makes on the host. -/
inductive HostOp where
  | createTextNode (h : Nat) (text : String)
  | createElement (h : Nat) (tag : Option String)
  | setAttribute (h : Nat) (name value : String)
  | insertBefore (parent node : Nat) (ref : Option Nat)
  | removeChild (parent node : Nat)
  | setTextContent (h : Nat) (text : String)
  deriving DecidableEq, Repr

/-- The host: node `h` is `nodes[h]`; `log` lists the calls, oldest first. -/
structure Host where
  nodes : List HostNode
  log : List HostOp
  deriving DecidableEq, Repr

/-- How a run can end without a value. -/
inductive Err where
  | typeError
  | notFoundError
  | hierarchyRequestError
  | invalidCharacterError
  | outOfFuel
  deriving DecidableEq, Repr

/-- The node behind a handle. -/
def Host.node? (h : Host) (n : Nat) : Option HostNode := h.nodes[n]?

/-- Overwrite the node behind a handle. -/
def Host.setNode (h : Host) (n : Nat) (x : HostNode) : Host :=
  { h with nodes := h.nodes.set n x }

/-- Append a call to the log. -/
def Host.record (h : Host) (op : HostOp) : Host :=
  { h with log := h.log ++ [op] }

/-- The children of a host node, left to right (empty for a missing handle). -/
def Host.childrenOf (h : Host) (n : Nat) : List Nat :=
  match h.node? n with
  | some x => x.children
  | none => []

/-- A call of `document.createTextNode(text)`: a fresh, detached text node. -/
def createTextNode (h : Host) (text : String) : Nat × Host :=
  (h.nodes.length,
    { nodes := h.nodes ++ [{ kind := .text text, attrs := [], children := [], parent := none }],
      log := h.log ++ [.createTextNode h.nodes.length text] })

/-- Whether `lo ≤ n ≤ hi`. -/
def inRange (lo hi n : Nat) : Bool := decide (lo ≤ n) && decide (n ≤ hi)

/-- The characters a name may start with, by code point: the production
`NameStartChar` of XML (`:`, `A` to `Z`, `_`, `a` to `z`, and the listed ranges
above ASCII). -/
def isNameStartChar (c : Char) : Bool :=
  c.toNat == 58 || inRange 65 90 c.toNat || c.toNat == 95 || inRange 97 122 c.toNat ||
  inRange 0xC0 0xD6 c.toNat || inRange 0xD8 0xF6 c.toNat || inRange 0xF8 0x2FF c.toNat ||
  inRange 0x370 0x37D c.toNat || inRange 0x37F 0x1FFF c.toNat ||
  inRange 0x200C 0x200D c.toNat || inRange 0x2070 0x218F c.toNat ||
  inRange 0x2C00 0x2FEF c.toNat || inRange 0x3001 0xD7FF c.toNat ||
  inRange 0xF900 0xFDCF c.toNat || inRange 0xFDF0 0xFFFD c.toNat ||
  inRange 0x10000 0xEFFFF c.toNat

/-- The characters a name may go on with: the production `NameChar` of XML
(a start character, `-`, `.`, a digit, the middle dot, and two more ranges). -/
def isNameChar (c : Char) : Bool :=
  isNameStartChar c || c.toNat == 45 || c.toNat == 46 || inRange 48 57 c.toNat ||
  c.toNat == 0xB7 || inRange 0x300 0x36F c.toNat || inRange 0x203F 0x2040 c.toNat

/-- The names that `document.createElement` and `setAttribute` take: the
production `Name` of XML.  The empty string and a name with a blank are not
among them; on such a name either call throws `InvalidCharacterError`. -/
def validName (s : String) : Bool :=
  match s.data with
  | [] => false
  | c :: cs => isNameStartChar c && cs.all isNameChar

/-- A name in ASCII lower case (`A` to `Z` become `a` to `z`): `document` is an
HTML document, in which `createElement` and `setAttribute` on an HTML element
put the name they are given in lower case. -/
def asciiLower (s : String) : String := String.mk (s.data.map Char.toLower)

/-- A value that is passed where the DOM takes a string: undefined is turned
into the string `undefined`. -/
def domString (x : Option String) : String :=
  match x with
  | none => "undefined"
  | some s => s

/-- A fresh, detached element with the given local name. -/
def freshElement (name : String) : HostNode :=
  { kind := .element name, attrs := [], children := [], parent := none }

/-- A call of `document.createElement(tag)`: `InvalidCharacterError` when the
tag is not a name, otherwise a fresh, detached element whose local name is the
tag in lower case.  The log keeps the argument as it was passed. -/
def createElement (h : Host) (tag : Option String) : Except Err (Nat × Host) :=
  if validName (domString tag) then
    .ok (h.nodes.length,
      { nodes := h.nodes ++ [freshElement (asciiLower (domString tag))],
        log := h.log ++ [.createElement h.nodes.length tag] })
  else .error .invalidCharacterError

/-- Set one entry of an attribute list: overwrite the name if present. -/
def setAttr (l : List (String × String)) (name value : String) : List (String × String) :=
  if l.any (fun p => p.1 == name) then
    l.map (fun p => if p.1 == name then (name, value) else p)
  else l ++ [(name, value)]

/-- A call of `elm.setAttribute(name, value)`; only elements have the method.
`InvalidCharacterError` when the name is not a name, otherwise the attribute
is set under the name in lower case.  The log keeps the arguments as they were
passed. -/
def setAttribute (h : Host) (n : Nat) (name value : String) : Except Err Host :=
  match h.node? n with
  | none => .error .typeError
  | some x =>
    match x.kind with
    | .text _ => .error .typeError
    | .element _ =>
      if validName name then
        .ok ((h.setNode n { x with attrs := setAttr x.attrs (asciiLower name) value }).record
          (.setAttribute n name value))
      else .error .invalidCharacterError

/-- The property `node.parentNode`. -/
def parentNode (h : Host) (n : Nat) : Option Nat :=
  match h.node? n with
  | some x => x.parent
  | none => none

/-- The entry that follows `n` in a child list. -/
def nextIn : List Nat → Nat → Option Nat
  | [], _ => none
  | x :: xs, n => if x = n then xs.head? else nextIn xs n

/-- The property `node.nextSibling`: `none` (null) for a detached node. -/
def nextSibling (h : Host) (n : Nat) : Option Nat :=
  match parentNode h n with
  | none => none
  | some p => nextIn (h.childrenOf p) n

/-- Whether `a` is `n` or one of its ancestors; `fuel` bounds the walk up. -/
def inclusiveAncestor (h : Host) : Nat → Nat → Nat → Bool
  | 0, a, n => a == n
  | fuel + 1, a, n =>
    if a == n then true
    else match parentNode h n with
      | none => false
      | some p => inclusiveAncestor h fuel a p

/-- Take `n` out of the child list of its parent, if it has one. -/
def detach (h : Host) (n : Nat) : Host :=
  match h.node? n with
  | none => h
  | some x =>
    match x.parent with
    | none => h
    | some p =>
      match h.node? p with
      | none => h.setNode n { x with parent := none }
      | some px =>
        (h.setNode p { px with children := px.children.erase n }).setNode n
          { x with parent := none }

/-- Put `n` in front of the first `r` of a child list, at the end without one. -/
def insertAt : List Nat → Nat → Nat → List Nat
  | [], n, _ => [n]
  | x :: xs, n, r => if x = r then n :: x :: xs else x :: insertAt xs n r

/-- Make the detached node `n` a child of `p`, before `ref` or last. -/
def attach (h : Host) (p n : Nat) (ref : Option Nat) : Host :=
  match h.node? p with
  | none => h
  | some px =>
    let cs := match ref with
      | none => px.children ++ [n]
      | some r => insertAt px.children n r
    let h1 := h.setNode p { px with children := cs }
    match h1.node? n with
    | none => h1
    | some x => h1.setNode n { x with parent := some p }

/-- A call of `parent.insertBefore(node, child)` on handles, after the DOM
standard: the parent must be an element, the node must not be an ancestor of
the parent, a non-null child must be a child of the parent; the node leaves
its former parent and is placed before the child (before its own next sibling
when the child is the node itself), or last when the child is null. -/
def insertBefore (h : Host) (p n : Nat) (ref : Option Nat) : Except Err Host :=
  match h.node? p, h.node? n with
  | some px, some _ =>
    match px.kind with
    | .text _ => .error .hierarchyRequestError
    | .element _ =>
      if inclusiveAncestor h h.nodes.length n p then .error .hierarchyRequestError
      else
        let refOk := match ref with
          | none => true
          | some r => parentNode h r == some p
        if refOk then
          let ref1 := if ref = some n then nextSibling h n else ref
          .ok ((attach (detach h n) p n ref1).record (.insertBefore p n ref))
        else .error .notFoundError
  | _, _ => .error .typeError

/-- A call of `parent.removeChild(child)` on handles. -/
def removeChild (h : Host) (p c : Nat) : Except Err Host :=
  match h.node? p, h.node? c with
  | some _, some cx =>
    if cx.parent = some p then .ok ((detach h c).record (.removeChild p c))
    else .error .notFoundError
  | _, _ => .error .typeError

/-- Clear the parent pointer of every listed node. -/
def orphan (h : Host) : List Nat → Host
  | [] => h
  | c :: cs =>
    match h.node? c with
    | none => orphan h cs
    | some cx => orphan (h.setNode c { cx with parent := none }) cs

/-- The assignment `elm.textContent = text`: a text node gets new data, an
element loses its children and gets one text child unless `text` is empty. -/
def setTextContent (h : Host) (n : Nat) (text : String) : Except Err Host :=
  match h.node? n with
  | none => .error .typeError
  | some x =>
    match x.kind with
    | .text _ => .ok ((h.setNode n { x with kind := .text text }).record (.setTextContent n text))
    | .element _ =>
      let h1 := (orphan h x.children).setNode n { x with children := [] }
      if text = "" then .ok (h1.record (.setTextContent n text))
      else
        let t := h1.nodes.length
        let tx : HostNode := { kind := .text text, attrs := [], children := [], parent := some n }
        .ok { nodes := (h1.nodes ++ [tx]).set n { x with children := [t] },
              log := h1.log ++ [.setTextContent n text] }

/-- A method call `parent.insertBefore(node, child)` whose receiver and
arguments were read from fields that may be undefined: an undefined receiver
or node is a `TypeError`, an undefined child counts as null. -/
def jsInsertBefore (h : Host) (p n ref : Option Nat) : Except Err Host :=
  match p, n with
  | some p, some n => insertBefore h p n ref
  | _, _ => .error .typeError

/-- A method call `parent.removeChild(child)` on values that may be undefined. -/
def jsRemoveChild (h : Host) (p c : Option Nat) : Except Err Host :=
  match p, c with
  | some p, some c => removeChild h p c
  | _, _ => .error .typeError

/-! ## Virtual nodes -/

/-- The `props` object: its `style` entry, and its other entries. -/
structure Props where
  attrs : List (String × String)
  style : Option (List (String × String))
  deriving DecidableEq, Repr

/-- A virtual node object.  `oid` is the reference of the object; `children`,
when present, is the reference of the array and its entries; `elm` is the
handle of the host node. -/
inductive VNode where
  | mk (oid : Nat) (key : Option String) (tag : Option String) (text : Option String)
      (props : Option Props) (children : Option (Nat × List VNode)) (elm : Option Nat)
  deriving Repr

namespace VNode

/-- The reference of the object. -/
def oid : VNode → Nat
  | .mk o _ _ _ _ _ _ => o

/-- The field `key`. -/
def key : VNode → Option String
  | .mk _ k _ _ _ _ _ => k

/-- The field `tag`. -/
def tag : VNode → Option String
  | .mk _ _ t _ _ _ _ => t

/-- The field `text`. -/
def text : VNode → Option String
  | .mk _ _ _ t _ _ _ => t

/-- The field `props`. -/
def props : VNode → Option Props
  | .mk _ _ _ _ p _ _ => p

/-- The field `children`. -/
def children : VNode → Option (Nat × List VNode)
  | .mk _ _ _ _ _ c _ => c

/-- The field `elm`. -/
def elm : VNode → Option Nat
  | .mk _ _ _ _ _ _ e => e

/-- The assignment `vnode.elm = e`. -/
def setElm : VNode → Option Nat → VNode
  | .mk o k t x p c _, e => .mk o k t x p c e

/-- The node with the entries of its child array replaced (same array). -/
def setItems : VNode → List VNode → VNode
  | .mk o k t x p (some (a, _)) e, cs => .mk o k t x p (some (a, cs)) e
  | .mk o k t x p none e, _ => .mk o k t x p none e

end VNode

/-- Modelled from the spec: `isUndef` of `./util`, a file that is not among
the sources; it holds of an absent value. -/
def isUndef {α : Type} (x : Option α) : Bool := x.isNone

/-- Modelled from the spec: `isDef` of `./util`, a file that is not among the
sources; it holds of a value that is present. -/
def isDef {α : Type} (x : Option α) : Bool := x.isSome

/-- Modelled from the spec: `isPrimitive` of `./util`, a file that is not
among the sources; it holds of a primitive text value, the only kind of value
the `text` field carries here. -/
def isPrimitive (x : Option String) : Bool := x.isSome

/-- The entry `arr[i]` of an array: undefined outside `0 .. length - 1`. -/
def at? {α : Type} (l : List α) (i : Int) : Option α :=
  if i < 0 then none else l[i.toNat]?

/-- The comparator `sameVnode`. -/
def sameVnode (old now : VNode) : Bool :=
  decide (old.key = now.key) && decide (old.tag = now.tag)

/-- The loop of `createElm` over `Object.keys(style)`. -/
def setStyle (h : Host) (e : Nat) : List (String × String) → Except Err Host
  | [] => .ok h
  | (k, v) :: rest =>
    match setAttribute h e k v with
    | .ok h1 => setStyle h1 e rest
    | .error er => .error er

mutual
/-- The function `createElm`: the node comes back with `elm` bound, in it and
in every descendant. -/
def createElm (h : Host) : VNode → Except Err (VNode × Host)
  | .mk oid key tag text props children _ =>
    match text with
    | some s =>
      -- isPrimitive(vnode.text)
      let r := createTextNode h s
      .ok (.mk oid key tag text props children (some r.1), r.2)
    | none =>
      match createElement h tag with
      | .error er => .error er
      | .ok r =>
        let style := match props with
          | none => []
          | some p => match p.style with
            | none => []
            | some st => st
        match setStyle r.2 r.1 style with
        | .error er => .error er
        | .ok h2 =>
          match children with
          | none => .ok (.mk oid key tag text props none (some r.1), h2)
          | some (aid, cs) =>
            match createChildren h2 r.1 cs with
            | .error er => .error er
            | .ok (cs1, h3) => .ok (.mk oid key tag text props (some (aid, cs1)) (some r.1), h3)
/-- The loop `children.forEach(node => elm.appendChild(createElm(node)))`;
`elm.appendChild(x)` is `elm.insertBefore(x, null)` and is logged as such.
Every entry comes back as written by its own visit, which is what the array
holds afterwards when its entries are distinct objects. -/
def createChildren (h : Host) (e : Nat) : List VNode → Except Err (List VNode × Host)
  | [] => .ok ([], h)
  | c :: cs =>
    match createElm h c with
    | .error er => .error er
    | .ok (c1, h1) =>
      match jsInsertBefore h1 (some e) c1.elm none with
      | .error er => .error er
      | .ok h2 =>
        match createChildren h2 e cs with
        | .error er => .error er
        | .ok (cs1, h3) => .ok (c1 :: cs1, h3)
end

/-- The loop of `addVnodes`; the first argument counts the iterations left. -/
def addVnodesLoop (parentElm refNode : Option Nat) :
    Nat → Int → Host → List VNode → Except Err (List VNode × Host)
  | 0, _, h, vnodes => .ok (vnodes, h)
  | n + 1, startIdx, h, vnodes =>
    match at? vnodes startIdx with
    | none => .error .typeError
    | some vnode =>
      match parentElm with
      | none => .error .typeError
      | some _ =>
        match createElm h vnode with
        | .error er => .error er
        | .ok (v1, h1) =>
          match jsInsertBefore h1 parentElm v1.elm refNode with
          | .error er => .error er
          | .ok h2 => addVnodesLoop parentElm refNode n (startIdx + 1) h2
              (vnodes.set startIdx.toNat v1)

/-- The function `addVnodes`: `startIdx <= endIdx` holds `endIdx - startIdx + 1`
times. -/
def addVnodes (h : Host) (parentElm : Option Nat) (vnodes : List VNode)
    (refNode : Option Nat) (startIdx endIdx : Int) : Except Err (List VNode × Host) :=
  addVnodesLoop parentElm refNode (endIdx - startIdx + 1).toNat startIdx h vnodes

/-- The loop of `removeVnodes`; the first argument counts the iterations left. -/
def removeVnodesLoop (parentElm : Option Nat) (vnodes : List VNode) :
    Nat → Int → Host → Except Err Host
  | 0, _, h => .ok h
  | n + 1, startIdx, h =>
    match at? vnodes startIdx with
    | none => removeVnodesLoop parentElm vnodes n (startIdx + 1) h
    | some vnode =>
      match jsRemoveChild h parentElm vnode.elm with
      | .error er => .error er
      | .ok h1 => removeVnodesLoop parentElm vnodes n (startIdx + 1) h1

/-- The function `removeVnodes`: `startIdx < endIdx` holds `endIdx - startIdx`
times, and never when an index is undefined (the call made without them). -/
def removeVnodes (h : Host) (parentElm : Option Nat) (vnodes : List VNode)
    (startIdx endIdx : Option Int) : Except Err Host :=
  match startIdx, endIdx with
  | some s, some e => removeVnodesLoop parentElm vnodes (e - s).toNat s h
  | _, _ => .ok h

/-- The method `map.set(key, index)` of a `Map`; undefined is a key like any
other. -/
def mapSet (m : List (Option String × Int)) (key : Option String) (index : Int) :
    List (Option String × Int) :=
  if m.any (fun p => p.1 == key) then
    m.map (fun p => if p.1 == key then (key, index) else p)
  else m ++ [(key, index)]

/-- The method `map.get(key)` of a `Map`. -/
def mapGet (m : List (Option String × Int)) (key : Option String) : Option Int :=
  (m.find? (fun p => p.1 == key)).map (fun p => p.2)

/-- The loop of `createKeyToOldIdx`; the first argument counts the iterations
left. -/
def createKeyToOldIdxLoop (children : List VNode) :
    Nat → Int → List (Option String × Int) → Except Err (List (Option String × Int))
  | 0, _, m => .ok m
  | n + 1, index, m =>
    match at? children index with
    | none => .error .typeError
    | some ch => createKeyToOldIdxLoop children n (index + 1) (mapSet m ch.key index)

/-- The function `createKeyToOldIdx`: `index < endIdx` holds `endIdx - beginIdx`
times. -/
def createKeyToOldIdx (children : List VNode) (beginIdx endIdx : Int) :
    Except Err (List (Option String × Int)) :=
  createKeyToOldIdxLoop children (endIdx - beginIdx).toNat beginIdx []

/-- The variables of `updateChildren` during its loop.  `ch` is the new child
array with the `elm` fields written so far.  `newStartVnode` and `newEndVnode`
hold references into `ch`, kept as the index of the entry they refer to;
`oldStartVnode` and `oldEndVnode` hold entries of the old array, which is
never written. -/
structure Loop where
  host : Host
  ch : List VNode
  oldStartIdx : Int
  newStartIdx : Int
  oldEndIdx : Int
  newEndIdx : Int
  oldStartVnode : Option VNode
  oldEndVnode : Option VNode
  newStartVnode : Option Nat
  newEndVnode : Option Nat
  oldKeyToIdx : Option (List (Option String × Int))

/-- The reference read by `ch[i]`: undefined outside the array. -/
def refAt (ch : List VNode) (i : Int) : Option Nat :=
  if i < 0 then none else if i.toNat < ch.length then some i.toNat else none

/-- The object behind a reference into `ch`. -/
def deref (ch : List VNode) (r : Option Nat) : Option VNode :=
  match r with
  | none => none
  | some i => ch[i]?

/-- The variables of `updateChildren` when its loop is first reached. -/
def Loop.init (h : Host) (oldCh ch : List VNode) : Loop :=
  { host := h
    ch := ch
    oldStartIdx := 0
    newStartIdx := 0
    oldEndIdx := (oldCh.length : Int) - 1
    newEndIdx := (ch.length : Int) - 1
    oldStartVnode := at? oldCh 0
    oldEndVnode := at? oldCh ((oldCh.length : Int) - 1)
    newStartVnode := refAt ch 0
    newEndVnode := refAt ch ((ch.length : Int) - 1)
    oldKeyToIdx := none }

/-- The condition of the `while` of `updateChildren`. -/
def Loop.running (st : Loop) : Bool :=
  decide (st.oldStartIdx ≤ st.oldEndIdx) && decide (st.newStartIdx ≤ st.newEndIdx)

/-- The statements of `updateChildren` after its loop. -/
def updateChildrenTail (parentElm : Option Nat) (oldCh : List VNode) (st : Loop) :
    Except Err (List VNode × Host) :=
  if st.oldStartIdx ≤ st.oldEndIdx ∨ st.newStartIdx ≤ st.newEndIdx then
    if st.oldStartIdx > st.oldEndIdx then
      let before := match at? st.ch (st.newStartIdx + 1) with
        | none => none
        | some v => v.elm
      addVnodes st.host parentElm st.ch before st.newStartIdx st.newEndIdx
    else
      match removeVnodes st.host parentElm oldCh (some st.oldStartIdx) (some st.oldEndIdx) with
      | .error er => .error er
      | .ok h1 => .ok (st.ch, h1)
  else .ok (st.ch, st.host)

/-- The statement `if (isUndef(oldKeyToIdx)) oldKeyToIdx = createKeyToOldIdx(...)`:
the index is built when it is first needed, over the range of that moment. -/
def keyToIdxOnce (oldCh : List VNode) (st : Loop) : Except Err (List (Option String × Int)) :=
  match st.oldKeyToIdx with
  | none => createKeyToOldIdx oldCh st.oldStartIdx st.oldEndIdx
  | some m => .ok m

/-- One iteration of the loop of `updateChildren`, from the variables before
it to the variables after it; `pv` stands for `patchVnode`, which the loop
calls. -/
def whileStep (pv : Host → VNode → VNode → Except Err (VNode × Host))
    (parentElm : Option Nat) (oldCh : List VNode) (st : Loop) : Except Err Loop :=
  match st.oldStartVnode, st.oldEndVnode with
  | none, _ =>
    -- isUndef(oldStartVnode)
    .ok { st with
      oldStartIdx := st.oldStartIdx + 1,
      oldStartVnode := at? oldCh (st.oldStartIdx + 1) }
  | some _, none =>
    -- isUndef(oldEndVnode)
    .ok { st with
      oldStartIdx := st.oldStartIdx - 1,
      oldEndVnode := at? oldCh (st.oldStartIdx - 1) }
  | some os, some oe =>
    match deref st.ch st.newStartVnode with
    | none => .error .typeError
    | some ns =>
      if sameVnode os ns then
        match pv st.host os ns with
        | .error er => .error er
        | .ok (ns1, h1) =>
          .ok { st with
            host := h1,
            ch := st.ch.set (st.newStartVnode.getD 0) ns1,
            oldStartIdx := st.oldStartIdx + 1,
            newStartIdx := st.newStartIdx + 1,
            oldStartVnode := at? oldCh (st.oldStartIdx + 1),
            newStartVnode := refAt st.ch (st.newStartIdx + 1) }
      else
        match deref st.ch st.newEndVnode with
        | none => .error .typeError
        | some ne =>
          if sameVnode oe ne then
            match pv st.host oe ne with
            | .error er => .error er
            | .ok (ne1, h1) =>
              .ok { st with
                host := h1,
                ch := st.ch.set (st.newEndVnode.getD 0) ne1,
                oldEndIdx := st.oldEndIdx - 1,
                newEndIdx := st.newEndIdx - 1,
                oldEndVnode := at? oldCh (st.oldEndIdx - 1),
                newEndVnode := refAt st.ch (st.newEndIdx - 1) }
          else if sameVnode oe ns then
            match pv st.host oe ns with
            | .error er => .error er
            | .ok (ns1, h1) =>
              match jsInsertBefore h1 parentElm oe.elm os.elm with
              | .error er => .error er
              | .ok h2 =>
                .ok { st with
                  host := h2,
                  ch := st.ch.set (st.newStartVnode.getD 0) ns1,
                  oldEndIdx := st.oldEndIdx - 1,
                  newStartIdx := st.newStartIdx + 1,
                  oldEndVnode := at? oldCh (st.oldEndIdx - 1),
                  oldStartVnode := at? oldCh st.oldStartIdx }
          else if sameVnode os ne then
            match pv st.host oe ns with
            | .error er => .error er
            | .ok (ns1, h1) =>
              match oe.elm with
              | none => .error .typeError
              | some oeElm =>
                match jsInsertBefore h1 parentElm os.elm (nextSibling h1 oeElm) with
                | .error er => .error er
                | .ok h2 =>
                  .ok { st with
                    host := h2,
                    ch := st.ch.set (st.newStartVnode.getD 0) ns1,
                    oldStartIdx := st.oldStartIdx + 1,
                    newEndIdx := st.newEndIdx - 1,
                    oldStartVnode := at? oldCh st.oldEndIdx,
                    newEndVnode := refAt st.ch (st.newEndIdx - 1) }
          else
            match keyToIdxOnce oldCh st with
            | .error er => .error er
            | .ok oldKeyToIdx =>
              match mapGet oldKeyToIdx ns.key with
              | none =>
                -- isUndef(idxInOld): the reference node handed to
                -- insertBefore is the virtual node oldStartVnode itself
                match parentElm with
                | none => .error .typeError
                | some _ =>
                  match createElm st.host ns with
                  | .error er => .error er
                  | .ok _ => .error .typeError
              | some idxInOld =>
                match at? oldCh idxInOld with
                | none => .error .typeError
                | some elmToMove =>
                  match pv st.host elmToMove ns with
                  | .error er => .error er
                  | .ok (ns1, h1) =>
                    match jsInsertBefore h1 parentElm elmToMove.elm os.elm with
                    | .error er => .error er
                    | .ok h2 =>
                      .ok { st with
                        host := h2,
                        ch := st.ch.set (st.newStartVnode.getD 0) ns1,
                        oldKeyToIdx := some oldKeyToIdx,
                        newStartIdx := st.newStartIdx + 1,
                        newStartVnode := refAt st.ch (st.newStartIdx + 1) }

mutual
/-- The function `patchVnode`; it hands back the new node as written. -/
def patchVnode : Nat → Host → VNode → VNode → Except Err (VNode × Host)
  | 0, _, _, _ => .error .outOfFuel
  | fuel + 1, h, oldVnode, vnode0 =>
    let vnode := vnode0.setElm oldVnode.elm
    let elm := vnode.elm
    let oldCh := oldVnode.children
    let ch := vnode.children
    if oldVnode.oid = vnode0.oid then .ok (vnode, h)
    else if isUndef vnode.text then
      match oldCh, ch with
      | some (oa, ocs), some (na, ncs) =>
        if oa ≠ na then
          match updateChildren fuel h elm ocs ncs with
          | .error er => .error er
          | .ok (ncs1, h1) => .ok (vnode.setItems ncs1, h1)
        else .ok (vnode, h)
      | none, some (_, ncs) =>
        match addVnodes h elm ncs none 0 ((ncs.length : Int) - 1) with
        | .error er => .error er
        | .ok (ncs1, h1) => .ok (vnode.setItems ncs1, h1)
      | some (_, ocs), none =>
        match removeVnodes h elm ocs none none with
        | .error er => .error er
        | .ok h1 => .ok (vnode, h1)
      | none, none => .ok (vnode, h)
    else if oldVnode.text ≠ vnode.text then
      match elm, vnode.text with
      | some e, some t =>
        match setTextContent h e t with
        | .error er => .error er
        | .ok h1 => .ok (vnode, h1)
      | _, _ => .error .typeError
    else .ok (vnode, h)
/-- The function `updateChildren`; it hands back the new child array as
written. -/
def updateChildren : Nat → Host → Option Nat → List VNode → List VNode →
    Except Err (List VNode × Host)
  | 0, _, _, _, _ => .error .outOfFuel
  | fuel + 1, h, parentElm, oldCh, ch =>
    match whileLoop fuel parentElm oldCh (Loop.init h oldCh ch) with
    | .error er => .error er
    | .ok st => updateChildrenTail parentElm oldCh st
/-- The `while` loop of `updateChildren`. -/
def whileLoop : Nat → Option Nat → List VNode → Loop → Except Err Loop
  | 0, _, _, st => if st.running then .error .outOfFuel else .ok st
  | fuel + 1, parentElm, oldCh, st =>
    if st.running then
      match whileStep (patchVnode fuel) parentElm oldCh st with
      | .error er => .error er
      | .ok st1 => whileLoop fuel parentElm oldCh st1
    else .ok st
end

/-- The function `patch`, the value that `init` returns. -/
def patch (fuel : Nat) (h : Host) (oldVnode vnode : Option VNode) :
    Except Err (Option VNode × Host) :=
  match oldVnode with
  | none =>
    -- isUndef(oldVnode)
    match vnode with
    | none => .error .typeError
    | some v =>
      match createElm h v with
      | .error er => .error er
      | .ok (v1, h1) => .ok (some v1, h1)
  | some o =>
    match vnode with
    | none => .ok (none, h)
    | some v =>
      if sameVnode o v then
        match patchVnode fuel h o v with
        | .error er => .error er
        | .ok (v1, h1) => .ok (some v1, h1)
      else
        match o.elm with
        | none => .error .typeError
        | some elm =>
          let parent := parentNode h elm
          match createElm h v with
          | .error er => .error er
          | .ok (v1, h1) =>
            match parent with
            | none => .error .typeError
            | some p =>
              match removeChild h1 p elm with
              | .error er => .error er
              | .ok h2 =>
                match jsInsertBefore h2 (some p) v1.elm (nextSibling h2 elm) with
                | .error er => .error er
                | .ok h3 => .ok (some v1, h3)

/-! ## Observing a run -/

deriving instance DecidableEq for Except

/-- The host before anything is created. -/
def Host.empty : Host := { nodes := [], log := [] }

/-- The `elm` of every entry of the child array of a node. -/
def childElms : Option VNode → List (Option Nat)
  | some (.mk _ _ _ _ _ (some (_, cs)) _) => cs.map VNode.elm
  | _ => []

mutual
/-- Whether `elm` is bound in a node and in all its descendants. -/
def allBound : VNode → Bool
  | .mk _ _ _ _ _ none e => e.isSome
  | .mk _ _ _ _ _ (some (_, cs)) e => e.isSome && allBoundList cs
/-- Whether `elm` is bound everywhere in a list of nodes. -/
def allBoundList : List VNode → Bool
  | [] => true
  | c :: cs => allBound c && allBoundList cs
end

/-- What is observed of a patch made on a mounted tree: the `elm` of the new
root and of its children, the host children of host node `0` (the first node
created by the mount), and the host calls made after the mount; `oldBound`
tells whether the mount bound `elm` in the whole old tree, `bound` whether `elm`
is bound in the whole tree that the patch returns. -/
structure Outcome where
  oldBound : Bool
  bound : Bool
  rootElm : Option Nat
  elms : List (Option Nat)
  hostChildren : List Nat
  calls : List HostOp
  deriving DecidableEq, Repr

/-- First mount of `old` on the empty host with `patch(undefined, old)`, then
`patch(old, new)` with the mounted tree as the old one. -/
def diffOutcome (fuel : Nat) (old new : VNode) : Except Err Outcome :=
  match patch fuel Host.empty none (some old) with
  | .error er => .error er
  | .ok (o1, h1) =>
    match patch fuel h1 o1 (some new) with
    | .error er => .error er
    | .ok (v, h2) =>
      .ok { oldBound := (o1.map allBound).getD false
            bound := (v.map allBound).getD false
            rootElm := (v.map VNode.elm).getD none
            elms := childElms v
            hostChildren := h2.childrenOf 0
            calls := h2.log.drop h1.log.length }

/-- First mount of `tree`, then `patch(c, new)` where `c` is the mounted entry
`i` of the child array of `tree`: a patch of a node that sits under a host
parent. -/
def childPatchOutcome (fuel : Nat) (tree : VNode) (i : Nat) (new : VNode) :
    Except Err Outcome :=
  match patch fuel Host.empty none (some tree) with
  | .error er => .error er
  | .ok (t1, h1) =>
    match t1 with
    | some (.mk _ _ _ _ _ (some (_, cs)) _) =>
      match patch fuel h1 cs[i]? (some new) with
      | .error er => .error er
      | .ok (v, h2) =>
        .ok { oldBound := (t1.map allBound).getD false
              bound := (v.map allBound).getD false
              rootElm := (v.map VNode.elm).getD none
              elms := childElms v
              hostChildren := h2.childrenOf 0
              calls := h2.log.drop h1.log.length }
    | _ => .error .typeError

/-- A keyed `li` element without children; `oid` is its reference. -/
def li (oid : Nat) (key : String) : VNode :=
  .mk oid (some key) (some "li") none none none none

/-- An element without a key and without a child array. -/
def leaf (oid : Nat) (tag : String) : VNode :=
  .mk oid none (some tag) none none none none

/-- An element without a key whose child array has the reference `aid`. -/
def el (oid : Nat) (tag : String) (aid : Nat) (cs : List VNode) : VNode :=
  .mk oid none (some tag) none none (some (aid, cs)) none

/-- A text node without a key. -/
def txt (oid : Nat) (s : String) : VNode :=
  .mk oid none none (some s) none none none

/-! ## Observing one iteration -/

/-- A keyed element without children. -/
def keyed (oid : Nat) (tag key : String) : VNode :=
  .mk oid (some key) (some tag) none none none none

/-- What is observed of the variables of the loop: the four indices, the `elm`
of the entries of the new child array, and the host children of host node `0`. -/
structure LoopView where
  oldStartIdx : Int
  oldEndIdx : Int
  newStartIdx : Int
  newEndIdx : Int
  elms : List (Option Nat)
  hostChildren : List Nat
  deriving DecidableEq, Repr

/-- The observed part of the variables of the loop. -/
def Loop.view (st : Loop) : LoopView :=
  { oldStartIdx := st.oldStartIdx
    oldEndIdx := st.oldEndIdx
    newStartIdx := st.newStartIdx
    newEndIdx := st.newEndIdx
    elms := st.ch.map VNode.elm
    hostChildren := st.host.childrenOf 0 }

/-- First mount of `old` on the empty host, then the first iteration of the
loop of `updateChildren(old.elm, old.children, new.children)`. -/
def firstStep (fuel : Nat) (old new : VNode) : Except Err LoopView :=
  match patch fuel Host.empty none (some old) with
  | .ok (some (.mk _ _ _ _ _ (some (_, ocs)) e), h) =>
    match new.children with
    | some (_, ncs) =>
      match whileStep (patchVnode fuel) e ocs (Loop.init h ocs ncs) with
      | .error er => .error er
      | .ok st => .ok st.view
    | none => .error .typeError
  | .ok _ => .error .typeError
  | .error er => .error er

/-- The variables of the loop at its entry for the old child array
`[A, undefined]` (`A` a keyed `li`) and the new child array `[X]`: the entry
`oldCh[1]` reads as undefined, `oldEndIdx` is `1`. -/
def absentEndEntry : Loop :=
  { Loop.init Host.empty [li 1 "a"] [li 11 "x"] with oldEndIdx := 1, oldEndVnode := none }

/-- The variables of the loop for the same arrays after `k` more iterations. -/
def absentEndAfter (k : Nat) : Loop :=
  { absentEndEntry with oldStartIdx := -(k : Int) }

/-! ## Attributes -/

/-- The entries of the `style` object of `props`, none when `props` or
`style` is absent. -/
def styleOf (p : Option Props) : List (String × String) :=
  match p with
  | none => []
  | some q =>
    match q.style with
    | none => []
    | some st => st

/-- An element with a `props` object and no children. -/
def withProps (oid : Nat) (tag : String) (p : Props) : VNode :=
  .mk oid none (some tag) none (some p) none none

/-- The `props` object `{ id: 'main', style: { color: 'red' } }`. -/
def mainProps : Props :=
  { attrs := [("id", "main")], style := some [("color", "red")] }

/-- The `props` object `{ id: 'main', style: { fontSize: '12px', color: 'red' } }`. -/
def camelProps : Props :=
  { attrs := [("id", "main")], style := some [("fontSize", "12px"), ("color", "red")] }

/-- The `props` object `{ style: { 'font size': '12px' } }`. -/
def spacedStyleProps : Props :=
  { attrs := [], style := some [("font size", "12px")] }

/-! ## A structurally equal copy -/

mutual
/-- Whether the second tree is a copy of the first made of other objects: at
every position another object (and another child array) with the same key,
tag and text, and a child array of the same length when there is one. -/
def copyOf : VNode → VNode → Bool
  | .mk oo ok ot ox _ none _, .mk no nk nt nx _ none _ =>
    decide (oo ≠ no) && decide (ok = nk) && decide (ot = nt) && decide (ox = nx)
  | .mk oo ok ot ox _ (some (oa, ocs)) _, .mk no nk nt nx _ (some (na, ncs)) _ =>
    decide (oo ≠ no) && decide (ok = nk) && decide (ot = nt) && decide (ox = nx) &&
      decide (oa ≠ na) && copyOfAll ocs ncs
  | _, _ => false
/-- Whether the second list is, entry by entry, a copy of the first. -/
def copyOfAll : List VNode → List VNode → Bool
  | [], [] => true
  | o :: os, n :: ns => copyOf o n && copyOfAll os ns
  | _, _ => false
end

mutual
/-- The second tree with the `elm` of every node taken from the node of the
first tree at the same position. -/
def bindFrom : VNode → VNode → VNode
  | .mk _ _ _ _ _ (some (_, ocs)) oe, .mk no nk nt nx np (some (na, ncs)) _ =>
    .mk no nk nt nx np (some (na, bindFromAll ocs ncs)) oe
  | .mk _ _ _ _ _ _ oe, .mk no nk nt nx np nc _ => .mk no nk nt nx np nc oe
/-- The second list with the `elm` of every node taken from the first list,
position by position. -/
def bindFromAll : List VNode → List VNode → List VNode
  | o :: os, n :: ns => bindFrom o n :: bindFromAll os ns
  | _, ns => ns
end

/-- The second list with the `elm` taken from the first list in its first `i`
entries. -/
def bindPrefix : Nat → List VNode → List VNode → List VNode
  | i + 1, o :: os, n :: ns => bindFrom o n :: bindPrefix i os ns
  | _, _, ns => ns

/-- The variables of the loop after `i` iterations that each matched
`oldStartVnode` with `newStartVnode`, for child arrays of length `n`. -/
def copyState (h : Host) (ocs ncs : List VNode) (i : Nat) : Loop :=
  { host := h
    ch := bindPrefix i ocs ncs
    oldStartIdx := (i : Int)
    newStartIdx := (i : Int)
    oldEndIdx := (ocs.length : Int) - 1
    newEndIdx := (ncs.length : Int) - 1
    oldStartVnode := at? ocs (i : Int)
    oldEndVnode := at? ocs ((ocs.length : Int) - 1)
    newStartVnode := refAt ncs (i : Int)
    newEndVnode := refAt ncs ((ncs.length : Int) - 1)
    oldKeyToIdx := none }

/-- The tree `ul[li(key a), p[text hi]]` as a first mount binds it: host nodes
`0` to `3`. -/
def mountedSample : VNode :=
  .mk 0 none (some "ul") none none
    (some (100, [.mk 1 (some "a") (some "li") none none none (some 1),
      .mk 2 none (some "p") none none
        (some (102, [.mk 3 none none (some "hi") none none (some 3)])) (some 2)]))
    (some 0)

/-- The host that the first mount of `ul[li(key a), p[text hi]]` leaves. -/
def mountedSampleHost : Host :=
  { nodes := [{ kind := .element "ul", attrs := [], children := [1, 2], parent := none },
              { kind := .element "li", attrs := [], children := [], parent := some 0 },
              { kind := .element "p", attrs := [], children := [3], parent := some 0 },
              { kind := .text "hi", attrs := [], children := [], parent := some 2 }],
    log := [.createElement 0 (some "ul"), .createElement 1 (some "li"),
            .insertBefore 0 1 none, .createElement 2 (some "p"), .createTextNode 3 "hi",
            .insertBefore 2 3 none, .insertBefore 0 2 none] }

/-! ## Termination -/

/-- The quantity that the loop of `updateChildren` is claimed to decrease. -/
def Loop.measure (st : Loop) : Int :=
  (st.oldEndIdx - st.oldStartIdx) + (st.newEndIdx - st.newStartIdx)

/-- What holds of the variables of the loop when the old child array `oldCh`
has no absent entry: the indices stay inside the array on the sides that
matter, `oldEndVnode` is the entry at `oldEndIdx`, `oldStartVnode` is an entry
read from the array, and it is present as long as the old range is not empty. -/
def LoopInv (oldCh : List VNode) (st : Loop) : Prop :=
  0 ≤ st.oldStartIdx ∧ st.oldEndIdx < (oldCh.length : Int) ∧
  st.oldEndVnode = at? oldCh st.oldEndIdx ∧
  (∃ j : Int, st.oldStartVnode = at? oldCh j) ∧
  (st.oldStartIdx ≤ st.oldEndIdx → st.oldStartVnode ≠ none)

mutual
/-- A size of a tree that bounds the fuel a patch of it can use: two for a
node, one more for every entry of a child array. -/
def weight : VNode → Nat
  | .mk _ _ _ _ _ none _ => 2
  | .mk _ _ _ _ _ (some (_, cs)) _ => 2 + weights cs
/-- The size of a child array. -/
def weights : List VNode → Nat
  | [] => 0
  | c :: cs => 1 + weight c + weights cs
end

/-! ## Fuel -/

/-- The answer `x` of a run with less fuel against the answer `y` of a run with
more: `x` ran out of fuel, or the two agree. -/
def settles {α : Type} (x y : Except Err α) : Prop :=
  x = .error .outOfFuel ∨ x = y

/-! ## The shape of a mounted tree -/

mutual
/-- What a virtual node describes: the node with `elm` cleared, in it and in
every descendant. -/
def skeleton : VNode → VNode
  | .mk o k t x p none _ => .mk o k t x p none none
  | .mk o k t x p (some (a, cs)) _ => .mk o k t x p (some (a, skeletons cs)) none
/-- The descriptions of a list of virtual nodes. -/
def skeletons : List VNode → List VNode
  | [] => []
  | c :: cs => skeleton c :: skeletons cs
end

mutual
/-- The invariant of the data model: a text node has no tag and no child
array, an element node has a tag, and so for every descendant. -/
def wellFormed : VNode → Bool
  | .mk _ _ t (some _) _ c _ => t.isNone && c.isNone
  | .mk _ _ t none _ none _ => t.isSome
  | .mk _ _ t none _ (some (_, cs)) _ => t.isSome && wellFormedAll cs
/-- The invariant of the data model on every node of a list. -/
def wellFormedAll : List VNode → Bool
  | [] => true
  | c :: cs => wellFormed c && wellFormedAll cs
end

mutual
/-- Whether every name that a first mount hands to the DOM is a name: the tag
of every element node and every name of its `style` object.  A text node
hands none, and its child array is not visited. -/
def validNames : VNode → Bool
  | .mk _ _ _ (some _) _ _ _ => true
  | .mk _ _ t none p none _ =>
    validName (domString t) && (styleOf p).all (fun kv => validName kv.1)
  | .mk _ _ t none p (some (_, cs)) _ =>
    validName (domString t) && (styleOf p).all (fun kv => validName kv.1) && validNamesAll cs
/-- Whether the names are names in every node of a list. -/
def validNamesAll : List VNode → Bool
  | [] => true
  | c :: cs => validNames c && validNamesAll cs
end

mutual
/-- The references of the objects of a tree, the root first. -/
def oids : VNode → List Nat
  | .mk o _ _ _ _ none _ => [o]
  | .mk o _ _ _ _ (some (_, cs)) _ => o :: oidsAll cs
/-- The references of the objects of a list of trees. -/
def oidsAll : List VNode → List Nat
  | [] => []
  | c :: cs => oids c ++ oidsAll cs
end

/-- Whether a tree value stands for a tree of objects: no object occurs in it
twice.  An object that sits at two places of a tree is written once by each
visit of `createElm` and keeps the `elm` of the last one, which a tree value
with two entries does not show. -/
def distinctObjects (v : VNode) : Bool := decide (oids v).Nodup

/-- The check on one node: `elm` is bound to a host node with a handle from
`lo` on; for a text node the host node is a text node with the same text and
without children, for an element node it is an element whose local name is the
tag in lower case and whose children are the `elm` of the entries of the child
array, in the same order. -/
def shapeOk (h : Host) (lo : Nat) (v : VNode) : Bool :=
  match v.elm with
  | none => false
  | some e =>
    decide (lo ≤ e) &&
    match h.node? e with
    | none => false
    | some x =>
      match v.text with
      | some s => decide (x.kind = .text s) && decide (x.children = [])
      | none =>
        decide (x.kind = .element (asciiLower (domString v.tag))) &&
        decide (x.children.map some = match v.children with
          | none => []
          | some (_, cs) => cs.map VNode.elm)

mutual
/-- Whether the host tree under `v.elm` has the shape of `v`, with every
handle from `lo` on: `shapeOk` at `v` and at every node below an element. -/
def mounted (h : Host) (lo : Nat) : VNode → Bool
  | .mk o k t (some s) p c e => shapeOk h lo (.mk o k t (some s) p c e)
  | .mk o k t none p none e => shapeOk h lo (.mk o k t none p none e)
  | .mk o k t none p (some (a, cs)) e =>
    shapeOk h lo (.mk o k t none p (some (a, cs)) e) && mountedAll h lo cs
/-- Whether every node of a list is mounted. -/
def mountedAll (h : Host) (lo : Nat) : List VNode → Bool
  | [] => true
  | c :: cs => mounted h lo c && mountedAll h lo cs
end

/-! ## The tests of `./util` as matches -/

theorem isUndef_iff {α : Type} (x : Option α) : isUndef x = true ↔ x = none := by
  cases x <;> simp [isUndef]

theorem isDef_iff {α : Type} (x : Option α) : isDef x = true ↔ ∃ a, x = some a := by
  cases x <;> simp [isDef]

theorem isPrimitive_iff (x : Option String) : isPrimitive x = true ↔ ∃ s, x = some s := by
  cases x <;> simp [isPrimitive]

/-! ## Lemmas on the host and on the first mount -/

theorem node?_setNode_ne (h : Host) (n i : Nat) (x : HostNode) (hne : i ≠ n) :
    (h.setNode n x).node? i = h.node? i := by
  simp [Host.setNode, Host.node?, List.getElem?_set_ne (Ne.symm hne)]

theorem node?_setNode_eq (h : Host) (n : Nat) (x y : HostNode) (hn : h.node? n = some y) :
    (h.setNode n x).node? n = some x := by
  have : n < h.nodes.length := by
    simp [Host.node?, List.getElem?_eq_some_iff] at hn
    exact hn.1
  simp [Host.setNode, Host.node?, this]

theorem node?_record (h : Host) (op : HostOp) (i : Nat) : (h.record op).node? i = h.node? i := rfl

theorem node?_lt (h : Host) (n : Nat) (x : HostNode) (hn : h.node? n = some x) :
    n < h.nodes.length := by
  simp [Host.node?, List.getElem?_eq_some_iff] at hn
  exact hn.1

/-- Appending a fresh detached node to an element without a parent. -/
theorem insertBefore_append (h : Host) (e n : Nat) (px nx : HostNode) (tg : String)
    (hp : h.node? e = some px) (hn : h.node? n = some nx) (hk : px.kind = .element tg)
    (hpp : px.parent = none) (hnp : nx.parent = none) (hne : e ≠ n) :
    insertBefore h e n none
      = .ok (((h.setNode e { px with children := px.children ++ [n] }).setNode n
          { nx with parent := some e }).record (.insertBefore e n none)) := by
  have hlen : 0 < h.nodes.length := Nat.lt_of_le_of_lt (Nat.zero_le _) (node?_lt h e px hp)
  obtain ⟨k, hk'⟩ : ∃ k, h.nodes.length = k + 1 := ⟨h.nodes.length - 1, by omega⟩
  have hanc : inclusiveAncestor h h.nodes.length n e = false := by
    rw [hk']
    simp [inclusiveAncestor, parentNode, hp, hpp, Ne.symm hne]
  have hne2 : n ≠ e := Ne.symm hne
  simp [insertBefore, hp, hn, hk, hanc, detach, hnp, attach, node?_setNode_ne _ _ _ _ hne2]


theorem node?_append_lt (l : List HostNode) (lg : List HostOp) (x : HostNode) (lg1 : List HostOp)
    (i : Nat) (hi : i < l.length) :
    Host.node? { nodes := l ++ [x], log := lg1 } i = Host.node? { nodes := l, log := lg } i := by
  simp [Host.node?, List.getElem?_append_left hi]

theorem node?_append_self (l : List HostNode) (x : HostNode) (lg1 : List HostOp) :
    Host.node? { nodes := l ++ [x], log := lg1 } l.length = some x := by
  simp [Host.node?]

theorem setAttribute_ok (h : Host) (e : Nat) (x : HostNode) (tg k v : String)
    (hx : h.node? e = some x) (hk : x.kind = .element tg) (hv : validName k = true) :
    setAttribute h e k v
      = .ok ((h.setNode e { x with attrs := setAttr x.attrs (asciiLower k) v }).record
          (.setAttribute e k v)) := by
  simp [setAttribute, hx, hk, hv]

theorem createElement_ok (h : Host) (t : Option String) (hv : validName (domString t) = true) :
    ∃ h0, createElement h t = .ok (h.nodes.length, h0) ∧
      h0.node? h.nodes.length = some (freshElement (asciiLower (domString t))) ∧
      h0.nodes.length = h.nodes.length + 1 ∧
      ∀ i, i < h.nodes.length → h0.node? i = h.node? i := by
  unfold createElement
  rw [if_pos hv]
  exact ⟨_, rfl, node?_append_self _ _ _, by simp,
    fun i hi => node?_append_lt _ _ _ _ i hi⟩

theorem setStyle_ok (st : List (String × String)) :
    ∀ (h : Host) (e : Nat) (x : HostNode) (tg : String),
      h.node? e = some x → x.kind = .element tg →
      st.all (fun kv => validName kv.1) = true →
      ∃ h1 x1, setStyle h e st = .ok h1 ∧ h1.nodes.length = h.nodes.length ∧
        h1.node? e = some x1 ∧ x1.kind = x.kind ∧ x1.children = x.children ∧
        x1.parent = x.parent ∧ ∀ i, i ≠ e → h1.node? i = h.node? i := by
  induction st with
  | nil =>
    intro h e x tg hx _ _
    exact ⟨h, x, rfl, rfl, hx, rfl, rfl, rfl, fun _ _ => rfl⟩
  | cons kv rest ih =>
    intro h e x tg hx hk hval
    obtain ⟨k, v⟩ := kv
    simp only [List.all_cons, Bool.and_eq_true] at hval
    have hset := setAttribute_ok h e x tg k v hx hk hval.1
    have hx1 : ((h.setNode e { x with attrs := setAttr x.attrs (asciiLower k) v }).record
        (.setAttribute e k v)).node? e
          = some { x with attrs := setAttr x.attrs (asciiLower k) v } := by
      rw [node?_record]; exact node?_setNode_eq h e _ x hx
    obtain ⟨h1, x1, hrun, hlen, hn, hk1, hc1, hp1, hfr⟩ := ih _ e _ tg hx1 hk hval.2
    refine ⟨h1, x1, ?_, ?_, hn, hk1, hc1, hp1, ?_⟩
    · simp [setStyle, hset, hrun]
    · rw [hlen]; simp [Host.record, Host.setNode]
    · intro i hi
      rw [hfr i hi, node?_record, node?_setNode_ne _ _ _ _ hi]

theorem shapeOk_frame (h h1 : Host) (lo : Nat) (v : VNode)
    (hfr : ∀ i x, lo ≤ i → h.node? i = some x →
      ∃ x1, h1.node? i = some x1 ∧ x1.kind = x.kind ∧ x1.children = x.children)
    (hv : shapeOk h lo v = true) : shapeOk h1 lo v = true := by
  unfold shapeOk at hv ⊢
  cases he : v.elm with
  | none => simp [he] at hv
  | some e =>
    simp only [he] at hv ⊢
    cases hx : h.node? e with
    | none => simp [hx] at hv
    | some x =>
      have hlo : lo ≤ e := by
        simp only [Bool.and_eq_true, decide_eq_true_eq] at hv
        exact hv.1
      obtain ⟨x1, hx1, hk, hc⟩ := hfr e x hlo hx
      simp only [hx, hx1, hk, hc] at hv ⊢
      exact hv

theorem shapeOk_mono (h : Host) (lo lo1 : Nat) (v : VNode) (hle : lo1 ≤ lo)
    (hv : shapeOk h lo v = true) : shapeOk h lo1 v = true := by
  unfold shapeOk at hv ⊢
  cases he : v.elm with
  | none => simp [he] at hv
  | some e =>
    simp only [he, Bool.and_eq_true, decide_eq_true_eq] at hv ⊢
    exact ⟨Nat.le_trans hle hv.1, hv.2⟩

mutual
theorem mounted_frame (h h1 : Host) (lo : Nat)
    (hfr : ∀ i x, lo ≤ i → h.node? i = some x →
      ∃ x1, h1.node? i = some x1 ∧ x1.kind = x.kind ∧ x1.children = x.children) :
    ∀ v : VNode, mounted h lo v = true → mounted h1 lo v = true
  | .mk o k t (some s) p c e => by
    intro hv
    simp only [mounted] at hv ⊢
    exact shapeOk_frame h h1 lo _ hfr hv
  | .mk o k t none p none e => by
    intro hv
    simp only [mounted] at hv ⊢
    exact shapeOk_frame h h1 lo _ hfr hv
  | .mk o k t none p (some (a, cs)) e => by
    intro hv
    simp only [mounted, Bool.and_eq_true] at hv ⊢
    exact ⟨shapeOk_frame h h1 lo _ hfr hv.1, mountedAll_frame h h1 lo hfr cs hv.2⟩
theorem mountedAll_frame (h h1 : Host) (lo : Nat)
    (hfr : ∀ i x, lo ≤ i → h.node? i = some x →
      ∃ x1, h1.node? i = some x1 ∧ x1.kind = x.kind ∧ x1.children = x.children) :
    ∀ cs : List VNode, mountedAll h lo cs = true → mountedAll h1 lo cs = true
  | [] => by
    intro _
    simp [mountedAll]
  | c :: cs => by
    intro hv
    simp only [mountedAll, Bool.and_eq_true] at hv ⊢
    exact ⟨mounted_frame h h1 lo hfr c hv.1, mountedAll_frame h h1 lo hfr cs hv.2⟩
end

mutual
theorem mounted_mono (h : Host) (lo lo1 : Nat) (hle : lo1 ≤ lo) :
    ∀ v : VNode, mounted h lo v = true → mounted h lo1 v = true
  | .mk o k t (some s) p c e => by
    intro hv
    simp only [mounted] at hv ⊢
    exact shapeOk_mono h lo lo1 _ hle hv
  | .mk o k t none p none e => by
    intro hv
    simp only [mounted] at hv ⊢
    exact shapeOk_mono h lo lo1 _ hle hv
  | .mk o k t none p (some (a, cs)) e => by
    intro hv
    simp only [mounted, Bool.and_eq_true] at hv ⊢
    exact ⟨shapeOk_mono h lo lo1 _ hle hv.1, mountedAll_mono h lo lo1 hle cs hv.2⟩
theorem mountedAll_mono (h : Host) (lo lo1 : Nat) (hle : lo1 ≤ lo) :
    ∀ cs : List VNode, mountedAll h lo cs = true → mountedAll h lo1 cs = true
  | [] => by
    intro _
    simp [mountedAll]
  | c :: cs => by
    intro hv
    simp only [mountedAll, Bool.and_eq_true] at hv ⊢
    exact ⟨mounted_mono h lo lo1 hle c hv.1, mountedAll_mono h lo lo1 hle cs hv.2⟩
end


theorem styleOf_inline (p : Option Props) :
    (match p with
      | none => []
      | some q => match q.style with
        | none => []
        | some st => st) = styleOf p := rfl

mutual
theorem createElm_spec : ∀ (v : VNode) (h : Host), validNames v = true →
    ∃ v1 h1, createElm h v = .ok (v1, h1) ∧
      v1.elm = some h.nodes.length ∧ h.nodes.length < h1.nodes.length ∧
      (∀ i, i < h.nodes.length → h1.node? i = h.node? i) ∧
      (∃ x, h1.node? h.nodes.length = some x ∧ x.parent = none) ∧
      skeleton v1 = skeleton v ∧ mounted h1 h.nodes.length v1 = true ∧
      (wellFormed v = true → allBound v1 = true)
  | .mk o k t (some s) p c e, h => by
    intro _
    refine ⟨.mk o k t (some s) p c (some h.nodes.length), (createTextNode h s).2, rfl, rfl,
      ?_, ?_, ?_, ?_, ?_, ?_⟩
    · simp [createTextNode]
    · intro i hi
      exact node?_append_lt _ _ _ _ i hi
    · exact ⟨_, node?_append_self _ _ _, rfl⟩
    · cases c with
      | none => simp [skeleton]
      | some ac => obtain ⟨a, cs⟩ := ac; simp [skeleton]
    · simp [mounted, shapeOk, VNode.elm, VNode.text, createTextNode, node?_append_self]
    · intro hwf
      cases c with
      | none => simp [allBound]
      | some ac => simp [wellFormed] at hwf
  | .mk o k t none p none e, h => by
    intro hval
    simp only [validNames, Bool.and_eq_true] at hval
    obtain ⟨h0, hce, hx0, hlen0, hfr0⟩ := createElement_ok h t hval.1
    obtain ⟨h2, x2, hrun, hlen, hn, hk, hc, hp, hfr⟩ :=
      setStyle_ok (styleOf p) h0 _ _ _ hx0 rfl hval.2
    refine ⟨.mk o k t none p none (some h.nodes.length), h2, ?_, rfl, ?_, ?_, ?_, ?_, ?_, ?_⟩
    · simp only [createElm, hce]
      rw [styleOf_inline, hrun]
    · omega
    · intro i hi
      rw [hfr i (Nat.ne_of_lt hi)]
      exact hfr0 i hi
    · exact ⟨x2, hn, hp⟩
    · simp [skeleton]
    · simp [mounted, shapeOk, VNode.elm, VNode.text, VNode.tag, VNode.children, hn, hk, hc,
        freshElement]
    · intro _
      simp [allBound]
  | .mk o k t none p (some (a, cs)) e, h => by
    intro hval
    simp only [validNames, Bool.and_eq_true] at hval
    obtain ⟨h0, hce, hx0, hlen0, hfr0⟩ := createElement_ok h t hval.1.1
    obtain ⟨h2, x2, hrun, hlen, hn, hk, hc, hp, hfr⟩ :=
      setStyle_ok (styleOf p) h0 _ _ _ hx0 rfl hval.1.2
    have hk2 : x2.kind = .element (asciiLower (domString t)) := hk
    have hp2 : x2.parent = none := hp
    have hc2 : x2.children = [] := hc
    obtain ⟨cs1, h3, hs, hrun3, hlen3, hfr3, hn3, helms, hsk, hm, hb⟩ :=
      createChildren_spec cs h2 h.nodes.length x2 _ hval.2 hn hk2 hp2
    refine ⟨.mk o k t none p (some (a, cs1)) (some h.nodes.length), h3, ?_, rfl, ?_, ?_, ?_,
      ?_, ?_, ?_⟩
    · simp only [createElm, hce]
      rw [styleOf_inline, hrun]
      simp only []
      rw [hrun3]
    · omega
    · intro i hi
      rw [hfr3 i (by omega) (Nat.ne_of_lt hi), hfr i (Nat.ne_of_lt hi)]
      exact hfr0 i hi
    · exact ⟨_, hn3, hp2⟩
    · simp [skeleton, hsk]
    · simp only [mounted, Bool.and_eq_true]
      constructor
      · simp [shapeOk, VNode.elm, VNode.text, VNode.tag, VNode.children, hn3, hk2, hc2, helms]
      · exact mountedAll_mono h3 _ _ (by omega) cs1 hm
    · intro hwf
      simp only [wellFormed, Bool.and_eq_true] at hwf
      simp [allBound, hb hwf.2]
theorem createChildren_spec : ∀ (cs : List VNode) (h : Host) (e : Nat) (px : HostNode)
    (tg : String), validNamesAll cs = true →
    h.node? e = some px → px.kind = .element tg → px.parent = none →
    ∃ cs1 h1 hs, createChildren h e cs = .ok (cs1, h1) ∧
      h.nodes.length ≤ h1.nodes.length ∧
      (∀ i, i < h.nodes.length → i ≠ e → h1.node? i = h.node? i) ∧
      h1.node? e = some { px with children := px.children ++ hs } ∧
      cs1.map VNode.elm = hs.map some ∧
      skeletons cs1 = skeletons cs ∧ mountedAll h1 h.nodes.length cs1 = true ∧
      (wellFormedAll cs = true → allBoundList cs1 = true)
  | [], h, e, px, tg => by
    intro _ hp _ _
    refine ⟨[], h, [], rfl, Nat.le_refl _, fun _ _ _ => rfl, ?_, rfl, rfl, rfl, fun _ => rfl⟩
    simpa using hp
  | c :: cs, h, e, px, tg => by
    intro hval hp hk hpp
    simp only [validNamesAll, Bool.and_eq_true] at hval
    obtain ⟨c1, h1, hrun1, helm1, hlen1, hfr1, ⟨nx, hnx, hnxp⟩, hsk1, hm1, hb1⟩ :=
      createElm_spec c h hval.1
    have he : e < h.nodes.length := node?_lt h e px hp
    have hp1 : h1.node? e = some px := by rw [hfr1 e he]; exact hp
    have hne : e ≠ h.nodes.length := Nat.ne_of_lt he
    have hins := insertBefore_append h1 e h.nodes.length px nx tg hp1 hnx hk hpp hnxp hne
    generalize hh2 : (((h1.setNode e { px with children := px.children ++ [h.nodes.length] }).setNode
      h.nodes.length { nx with parent := some e }).record
        (.insertBefore e h.nodes.length none)) = h2 at hins
    have hnode2 : ∀ i, h2.node? i = ((h1.setNode e
        { px with children := px.children ++ [h.nodes.length] }).setNode
          h.nodes.length { nx with parent := some e }).node? i := by
      intro i; rw [← hh2, node?_record]
    have hp2 : h2.node? e = some { px with children := px.children ++ [h.nodes.length] } := by
      rw [hnode2, node?_setNode_ne _ _ _ _ hne]
      exact node?_setNode_eq _ _ _ _ hp1
    have hlen2 : h2.nodes.length = h1.nodes.length := by
      rw [← hh2]; simp [Host.record, Host.setNode]
    obtain ⟨cs1, h3, hs, hrun3, hlen3, hfr3, hn3, helms, hsk, hm, hb⟩ :=
      createChildren_spec cs h2 e _ tg hval.2 hp2 hk hpp
    refine ⟨c1 :: cs1, h3, h.nodes.length :: hs, ?_, ?_, ?_, ?_, ?_, ?_, ?_, ?_⟩
    · simp only [createChildren, hrun1, helm1, jsInsertBefore, hins, hrun3]
    · omega
    · intro i hi hie
      rw [hfr3 i (by omega) hie, hnode2, node?_setNode_ne _ _ _ _ (Nat.ne_of_lt hi),
        node?_setNode_ne _ _ _ _ hie, hfr1 i hi]
    · rw [hn3]; simp
    · simp [helm1, helms]
    · simp [skeletons, hsk1, hsk]
    · simp only [mountedAll, Bool.and_eq_true]
      constructor
      · apply mounted_frame h1 h3 h.nodes.length _ c1 hm1
        intro i x hlo hx
        have hi1 : i < h1.nodes.length := node?_lt h1 i x hx
        have hie : i ≠ e := by omega
        rw [hfr3 i (by omega) hie, hnode2]
        by_cases hin : i = h.nodes.length
        · subst hin
          have hxe : x = nx := by
            rw [hx] at hnx
            exact Option.some.inj hnx
          subst hxe
          refine ⟨_, node?_setNode_eq _ _ _ x ?_, rfl, rfl⟩
          rw [node?_setNode_ne _ _ _ _ (Ne.symm hne)]
          exact hx
        · rw [node?_setNode_ne _ _ _ _ hin, node?_setNode_ne _ _ _ _ hie]
          exact ⟨x, hx, rfl, rfl⟩
      · exact mountedAll_mono h3 _ _ (by omega) cs1 hm
    · intro hwf
      simp only [wellFormedAll, Bool.and_eq_true] at hwf
      simp [allBoundList, hb1 hwf.1, hb hwf.2]
end

/-! ## More fuel does not change an answer -/

theorem settles_refl {α : Type} (x : Except Err α) : settles x x := Or.inr rfl

theorem whileStep_settles (pv pv1 : Host → VNode → VNode → Except Err (VNode × Host))
    (hpv : ∀ h o v, settles (pv h o v) (pv1 h o v)) (p : Option Nat) (o : List VNode)
    (st : Loop) : settles (whileStep pv p o st) (whileStep pv1 p o st) := by
  unfold whileStep
  cases hos : st.oldStartVnode with
  | none => right; rfl
  | some os =>
    cases hoe : st.oldEndVnode with
    | none => right; rfl
    | some oe =>
      simp only []
      cases hns : deref st.ch st.newStartVnode with
      | none => right; rfl
      | some ns =>
        simp only []
        by_cases h1 : sameVnode os ns = true
        · simp only [h1, if_true]
          rcases hpv st.host os ns with hp | hp
          · left; rw [hp]
          · right; rw [hp]
        · simp only [h1, Bool.false_eq_true, if_false]
          cases hne : deref st.ch st.newEndVnode with
          | none => right; rfl
          | some ne =>
            simp only []
            by_cases h2 : sameVnode oe ne = true
            · simp only [h2, if_true]
              rcases hpv st.host oe ne with hp | hp
              · left; rw [hp]
              · right; rw [hp]
            · simp only [h2, Bool.false_eq_true, if_false]
              by_cases h3 : sameVnode oe ns = true
              · simp only [h3, if_true]
                rcases hpv st.host oe ns with hp | hp
                · left; rw [hp]
                · right; rw [hp]
              · simp only [h3, Bool.false_eq_true, if_false]
                by_cases h4 : sameVnode os ne = true
                · simp only [h4, if_true]
                  rcases hpv st.host oe ns with hp | hp
                  · left; rw [hp]
                  · right; rw [hp]
                · simp only [h4, Bool.false_eq_true, if_false]
                  cases keyToIdxOnce o st with
                  | error er => right; rfl
                  | ok m =>
                    simp only []
                    cases mapGet m ns.key with
                    | none => right; rfl
                    | some idxInOld =>
                      simp only []
                      cases at? o idxInOld with
                      | none => right; rfl
                      | some elmToMove =>
                        simp only []
                        rcases hpv st.host elmToMove ns with hp | hp
                        · left; rw [hp]
                        · right; rw [hp]

theorem fuel_step (f : Nat) :
    (∀ h o v, settles (patchVnode f h o v) (patchVnode (f + 1) h o v)) ∧
    (∀ h p o c, settles (updateChildren f h p o c) (updateChildren (f + 1) h p o c)) ∧
    (∀ p o st, settles (whileLoop f p o st) (whileLoop (f + 1) p o st)) := by
  induction f with
  | zero =>
    refine ⟨fun h o v => Or.inl rfl, fun h p o c => Or.inl rfl, fun p o st => ?_⟩
    by_cases hr : st.running = true
    · left
      simp [whileLoop, hr]
    · right
      simp [whileLoop, hr]
  | succ f ih =>
    obtain ⟨ihP, ihU, ihW⟩ := ih
    refine ⟨?_, ?_, ?_⟩
    · intro h o v
      rw [patchVnode, patchVnode]
      by_cases hoid : o.oid = v.oid
      · right; simp [hoid]
      · by_cases htext : isUndef (v.setElm o.elm).text = true
        · cases hoc : o.children with
          | none =>
            right
            cases hc : (v.setElm o.elm).children <;> simp [hoid, htext, hoc, hc]
          | some oc =>
            obtain ⟨oa, ocs⟩ := oc
            cases hc : (v.setElm o.elm).children with
            | none => right; simp [hoid, htext, hoc, hc]
            | some nc =>
              obtain ⟨na, ncs⟩ := nc
              by_cases ha : oa = na
              · right; simp [hoid, htext, hoc, hc, ha]
              · rcases ihU h (v.setElm o.elm).elm ocs ncs with hu | hu
                · left; simp [hoid, htext, hoc, hc, ha, hu]
                · right; simp [hoid, htext, hoc, hc, ha, hu]
        · right; simp [hoid, htext]
    · intro h p o c
      rw [updateChildren, updateChildren]
      rcases ihW p o (Loop.init h o c) with hw | hw
      · left; rw [hw]
      · right; rw [hw]
    · intro p o st
      rw [whileLoop, whileLoop]
      by_cases hr : st.running = true
      swap
      · right; simp [hr]
      simp only [hr, if_true]
      rcases whileStep_settles (patchVnode f) (patchVnode (f + 1)) ihP p o st with hs | hs
      · left; rw [hs]
      · rw [← hs]
        cases whileStep (patchVnode f) p o st with
        | error er => right; rfl
        | ok st1 => exact ihW _ _ _

theorem settles_trans {α : Type} {x y z : Except Err α} (hxy : settles x y)
    (hyz : settles y z) : settles x z := by
  rcases hxy with hx | hx
  · exact Or.inl hx
  · rcases hyz with hy | hy
    · exact Or.inl (hx.trans hy)
    · exact Or.inr (hx.trans hy)

theorem settles_ok {α : Type} {x y : Except Err α} {r : α} (hxy : settles x y)
    (hx : x = .ok r) : y = .ok r := by
  rcases hxy with h | h
  · rw [hx] at h; cases h
  · rw [← h]; exact hx

theorem patchVnode_settles (f n : Nat) (h : Host) (o v : VNode) :
    settles (patchVnode f h o v) (patchVnode (f + n) h o v) := by
  induction n with
  | zero => exact settles_refl _
  | succ n ih => exact settles_trans ih ((fuel_step (f + n)).1 h o v)

theorem patch_settles (f n : Nat) (h : Host) (o v : Option VNode) :
    settles (patch f h o v) (patch (f + n) h o v) := by
  cases o with
  | none => exact Or.inr rfl
  | some o =>
    cases v with
    | none => exact Or.inr rfl
    | some v =>
      by_cases hs : sameVnode o v = true
      · rcases patchVnode_settles f n h o v with hp | hp
        · left; simp [patch, hs, hp]
        · right; simp [patch, hs, hp]
      · right; simp [patch, hs]

theorem diffOutcome_settles (f n : Nat) (old new : VNode) :
    settles (diffOutcome f old new) (diffOutcome (f + n) old new) := by
  have hm : patch (f + n) Host.empty none (some old) = patch f Host.empty none (some old) := rfl
  unfold diffOutcome
  rw [hm]
  cases patch f Host.empty none (some old) with
  | error er => exact Or.inr rfl
  | ok r =>
    obtain ⟨o1, h1⟩ := r
    rcases patch_settles f n h1 o1 (some new) with hp | hp
    · left; simp [hp]
    · right; simp [hp]

theorem childPatchOutcome_settles (f n : Nat) (tree : VNode) (i : Nat) (new : VNode) :
    settles (childPatchOutcome f tree i new) (childPatchOutcome (f + n) tree i new) := by
  have hm : patch (f + n) Host.empty none (some tree) = patch f Host.empty none (some tree) :=
    rfl
  unfold childPatchOutcome
  rw [hm]
  cases patch f Host.empty none (some tree) with
  | error er => exact Or.inr rfl
  | ok r =>
    obtain ⟨t1, h1⟩ := r
    cases t1 with
    | none => exact Or.inr rfl
    | some t =>
      obtain ⟨o, k, tg, x, p, c, e⟩ := t
      cases c with
      | none => exact Or.inr rfl
      | some ac =>
        obtain ⟨a, cs⟩ := ac
        rcases patch_settles f n h1 cs[i]? (some new) with hp | hp
        · left; simp [hp]
        · right; simp [hp]

/-! ## Attributes of a mounted element -/

theorem setStyle_attrs (st : List (String × String)) :
    ∀ (h : Host) (e : Nat) (x : HostNode) (tg : String),
      h.node? e = some x → x.kind = .element tg →
      st.all (fun kv => validName kv.1) = true →
      ∃ h1 x1, setStyle h e st = .ok h1 ∧ h1.node? e = some x1 ∧
        x1.attrs = st.foldl (fun a kv => setAttr a (asciiLower kv.1) kv.2) x.attrs := by
  induction st with
  | nil =>
    intro h e x tg hx _ _
    exact ⟨h, x, rfl, hx, rfl⟩
  | cons kv rest ih =>
    intro h e x tg hx hk hval
    obtain ⟨k, v⟩ := kv
    simp only [List.all_cons, Bool.and_eq_true] at hval
    have hset := setAttribute_ok h e x tg k v hx hk hval.1
    have hx1 : ((h.setNode e { x with attrs := setAttr x.attrs (asciiLower k) v }).record
        (.setAttribute e k v)).node? e
          = some { x with attrs := setAttr x.attrs (asciiLower k) v } := by
      rw [node?_record]; exact node?_setNode_eq h e _ x hx
    obtain ⟨h1, x1, hrun, hn, ha⟩ := ih _ e _ tg hx1 hk hval.2
    refine ⟨h1, x1, ?_, hn, ?_⟩
    · simp [setStyle, hset, hrun]
    · rw [ha]; rfl

theorem setAttr_fresh (l : List (String × String)) (k v : String)
    (hk : k ∉ l.map Prod.fst) : setAttr l k v = l ++ [(k, v)] := by
  have : l.any (fun p => p.1 == k) = false := by
    rw [List.any_eq_false]
    intro p hp hpk
    apply hk
    simp only [beq_iff_eq] at hpk
    rw [← hpk]
    exact List.mem_map_of_mem Prod.fst hp
  simp [setAttr, this]

theorem foldl_setAttr_nodup (st : List (String × String)) :
    ∀ acc : List (String × String),
      (acc.map Prod.fst ++ st.map (fun kv => asciiLower kv.1)).Nodup →
      st.foldl (fun a kv => setAttr a (asciiLower kv.1) kv.2) acc
        = acc ++ st.map (fun kv => (asciiLower kv.1, kv.2)) := by
  induction st with
  | nil => intro acc _; simp
  | cons kv rest ih =>
    intro acc hnd
    obtain ⟨k, v⟩ := kv
    have hk : asciiLower k ∉ acc.map Prod.fst := by
      intro hmem
      rw [List.nodup_append] at hnd
      exact hnd.2.2 hmem (by simp)
    simp only [List.foldl_cons]
    rw [setAttr_fresh acc (asciiLower k) v hk, ih]
    · simp
    · simpa [List.nodup_append, List.nodup_cons, List.map_append, List.mem_append, and_assoc,
        or_imp, forall_and] using hnd

theorem createElm_attrs_of_style (h : Host) (o : Nat) (k t : Option String) (p : Option Props)
    (c : Option (Nat × List VNode)) (e : Option Nat)
    (hval : validNames (.mk o k t none p c e) = true)
    (hkeys : ((styleOf p).map (fun kv => asciiLower kv.1)).Nodup) :
    ∃ v1 h1 x, createElm h (.mk o k t none p c e) = .ok (v1, h1) ∧
      v1.elm = some h.nodes.length ∧ h1.node? h.nodes.length = some x ∧
      x.kind = .element (asciiLower (domString t)) ∧
      x.attrs = (styleOf p).map (fun kv => (asciiLower kv.1, kv.2)) := by
  have hvs : validName (domString t) = true ∧
      (styleOf p).all (fun kv => validName kv.1) = true := by
    cases c with
    | none => simpa [validNames] using hval
    | some ac =>
      obtain ⟨a, cs⟩ := ac
      simp only [validNames, Bool.and_eq_true] at hval
      exact hval.1
  obtain ⟨h0, hce, hx0, _, _⟩ := createElement_ok h t hvs.1
  obtain ⟨h2, x2, hrun, _, hn, hk, _, hp, _⟩ := setStyle_ok (styleOf p) h0 _ _ _ hx0 rfl hvs.2
  obtain ⟨h3, x3, hrun3, hn3, ha3⟩ := setStyle_attrs (styleOf p) h0 _ _ _ hx0 rfl hvs.2
  rw [hrun] at hrun3
  cases hrun3
  rw [hn] at hn3
  cases hn3
  have hattrs : x2.attrs = (styleOf p).map (fun kv => (asciiLower kv.1, kv.2)) := by
    rw [ha3]
    exact foldl_setAttr_nodup (styleOf p) [] (by simpa using hkeys)
  cases c with
  | none =>
    refine ⟨.mk o k t none p none (some h.nodes.length), h2, x2, ?_, rfl, hn, hk, hattrs⟩
    simp only [createElm, hce]
    rw [styleOf_inline, hrun]
  | some ac =>
    obtain ⟨a, cs⟩ := ac
    simp only [validNames, Bool.and_eq_true] at hval
    obtain ⟨cs1, h4, hs, hrun4, _, _, hn4, _⟩ :=
      createChildren_spec cs h2 h.nodes.length x2 _ hval.2 hn hk hp
    refine ⟨.mk o k t none p (some (a, cs1)) (some h.nodes.length), h4, _, ?_, rfl, hn4, hk,
      hattrs⟩
    simp only [createElm, hce]
    rw [styleOf_inline, hrun]
    simp only []
    rw [hrun4]

/-! ## An old child array with an absent entry -/

theorem absentEnd_step (pv : Host → VNode → VNode → Except Err (VNode × Host)) (k : Nat) :
    whileStep pv (some 0) [li 1 "a"] (absentEndAfter k) = .ok (absentEndAfter (k + 1)) := by
  have hneg : (-(k : Int) - 1 < 0) := by omega
  have hat : at? [li 1 "a"] (-(k : Int) - 1) = none := by simp [at?, hneg]
  have hidx : (-(k : Int) - 1) = -((k + 1 : Nat) : Int) := by push_cast; omega
  simp only [whileStep, absentEndAfter, absentEndEntry, Loop.init, at?]
  simp [hidx]
  intro hk
  omega

theorem absentEnd_running (k : Nat) : (absentEndAfter k).running = true := by
  simp [Loop.running, absentEndAfter, absentEndEntry, Loop.init]
  omega

theorem absentEnd_never_ends (fuel : Nat) :
    ∀ k : Nat, whileLoop fuel (some 0) [li 1 "a"] (absentEndAfter k) = .error .outOfFuel := by
  induction fuel with
  | zero =>
    intro k
    simp [whileLoop, absentEnd_running]
  | succ f ih =>
    intro k
    rw [whileLoop]
    simp only [absentEnd_running, if_true, absentEnd_step]
    exact ih (k + 1)

/-! ## Patching against a copy -/

theorem at?_natCast {α : Type} (l : List α) (i : Nat) : at? l (i : Int) = l[i]? := by
  simp [at?]

theorem refAt_natCast (l : List VNode) (i : Nat) :
    refAt l (i : Int) = if i < l.length then some i else none := by
  simp [refAt]

theorem length_bindPrefix : ∀ (i : Nat) (os ns : List VNode),
    (bindPrefix i os ns).length = ns.length
  | 0, _, _ => by simp [bindPrefix]
  | i + 1, [], ns => by simp [bindPrefix]
  | i + 1, _ :: _, [] => by simp [bindPrefix]
  | i + 1, o :: os, n :: ns => by simp [bindPrefix, length_bindPrefix i os ns]

theorem getElem?_bindPrefix : ∀ (i : Nat) (os ns : List VNode),
    (bindPrefix i os ns)[i]? = ns[i]?
  | 0, _, _ => by simp [bindPrefix]
  | i + 1, [], ns => by simp [bindPrefix]
  | i + 1, _ :: _, [] => by simp [bindPrefix]
  | i + 1, o :: os, n :: ns => by simp [bindPrefix, getElem?_bindPrefix i os ns]

theorem set_bindPrefix : ∀ (i : Nat) (os ns : List VNode) (o n : VNode),
    os[i]? = some o → ns[i]? = some n →
    (bindPrefix i os ns).set i (bindFrom o n) = bindPrefix (i + 1) os ns
  | 0, [], _, _, _ => by simp
  | 0, _ :: _, [], _, _ => by simp
  | 0, o :: os, n :: ns, o1, n1 => by
    intro ho hn
    simp at ho hn
    subst ho hn
    simp [bindPrefix]
  | i + 1, [], _, _, _ => by simp
  | i + 1, _ :: _, [], _, _ => by simp
  | i + 1, o :: os, n :: ns, o1, n1 => by
    intro ho hn
    simp at ho hn
    simp [bindPrefix, set_bindPrefix i os ns o1 n1 ho hn]

theorem bindPrefix_all : ∀ (i : Nat) (os ns : List VNode), ns.length ≤ i →
    bindPrefix i os ns = bindFromAll os ns
  | 0, os, ns => by
    intro hl
    have : ns = [] := by simpa using hl
    subst this
    cases os <;> simp [bindPrefix, bindFromAll]
  | i + 1, [], ns => by intro _; simp [bindPrefix, bindFromAll]
  | i + 1, _ :: _, [] => by intro _; simp [bindPrefix, bindFromAll]
  | i + 1, o :: os, n :: ns => by
    intro hl
    simp at hl
    simp [bindPrefix, bindFromAll, bindPrefix_all i os ns hl]

theorem copyOfAll_length : ∀ (os ns : List VNode), copyOfAll os ns = true →
    os.length = ns.length
  | [], [] => by simp
  | [], _ :: _ => by simp [copyOfAll]
  | _ :: _, [] => by simp [copyOfAll]
  | o :: os, n :: ns => by
    intro hc
    simp only [copyOfAll, Bool.and_eq_true] at hc
    simp [copyOfAll_length os ns hc.2]

theorem copyOfAll_get : ∀ (os ns : List VNode) (i : Nat) (o n : VNode),
    copyOfAll os ns = true → os[i]? = some o → ns[i]? = some n → copyOf o n = true
  | [], _, _, _, _ => by simp
  | _ :: _, [], _, _, _ => by simp
  | o :: os, n :: ns, 0, o1, n1 => by
    intro hc ho hn
    simp only [copyOfAll, Bool.and_eq_true] at hc
    simp at ho hn
    subst ho hn
    exact hc.1
  | o :: os, n :: ns, i + 1, o1, n1 => by
    intro hc ho hn
    simp only [copyOfAll, Bool.and_eq_true] at hc
    simp at ho hn
    exact copyOfAll_get os ns i o1 n1 hc.2 ho hn

theorem wellFormedAll_get : ∀ (ns : List VNode) (i : Nat) (n : VNode),
    wellFormedAll ns = true → ns[i]? = some n → wellFormed n = true
  | [], _, _ => by simp
  | n :: ns, 0, n1 => by
    intro hw hn
    simp only [wellFormedAll, Bool.and_eq_true] at hw
    simp at hn
    subst hn
    exact hw.1
  | n :: ns, i + 1, n1 => by
    intro hw hn
    simp only [wellFormedAll, Bool.and_eq_true] at hw
    simp at hn
    exact wellFormedAll_get ns i n1 hw.2 hn

theorem copyOf_sameVnode (o n : VNode) (hc : copyOf o n = true) : sameVnode o n = true := by
  obtain ⟨oo, ok, ot, ox, op, oc, oe⟩ := o
  obtain ⟨no, nk, nt, nx, np, nc, ne⟩ := n
  rcases oc with _ | ⟨oa, ocs⟩ <;> rcases nc with _ | ⟨na, ncs⟩ <;>
    simp [copyOf] at hc <;> simp [sameVnode, VNode.key, VNode.tag, hc]

theorem copy_step (pv : Host → VNode → VNode → Except Err (VNode × Host)) (h : Host)
    (p : Option Nat) (ocs ncs : List VNode) (i : Nat) (o n : VNode)
    (ho : ocs[i]? = some o) (hn : ncs[i]? = some n) (hlen : ocs.length = ncs.length)
    (hsame : sameVnode o n = true) (hpv : pv h o n = .ok (bindFrom o n, h)) :
    whileStep pv p ocs (copyState h ocs ncs i) = .ok (copyState h ocs ncs (i + 1)) := by
  have hi : i < ocs.length := by
    rw [List.getElem?_eq_some_iff] at ho
    exact ho.1
  have hin : i < ncs.length := hlen ▸ hi
  obtain ⟨last, hlast⟩ : ∃ last, at? ocs ((ocs.length : Int) - 1) = some last := by
    have hcast : ((ocs.length : Int) - 1) = ((ocs.length - 1 : Nat) : Int) := by omega
    rw [hcast, at?_natCast]
    exact ⟨_, List.getElem?_eq_getElem (show ocs.length - 1 < ocs.length by omega)⟩
  have hos : at? ocs (i : Int) = some o := by rw [at?_natCast]; exact ho
  have href : refAt ncs (i : Int) = some i := by rw [refAt_natCast]; simp [hin]
  have hder : deref (bindPrefix i ocs ncs) (some i) = some n := by
    simp [deref, getElem?_bindPrefix, hn]
  have hcast1 : ((i : Int) + 1) = ((i + 1 : Nat) : Int) := by push_cast; rfl
  have hrefl : ∀ j : Int, refAt (bindPrefix i ocs ncs) j = refAt ncs j := by
    intro j
    simp [refAt, length_bindPrefix]
  simp only [whileStep, copyState, hos, hlast, href, hder, hsame, if_true, hpv,
    Option.getD_some, set_bindPrefix i ocs ncs o n ho hn, hcast1, hrefl]

theorem copy_loop (h : Host) (p : Option Nat) (ocs ncs : List VNode)
    (hcopy : copyOfAll ocs ncs = true) (hwf : wellFormedAll ncs = true)
    (hall : ∀ o, o ∈ ocs → ∀ (n : VNode) (h1 : Host), copyOf o n = true → wellFormed n = true →
      ∃ F, ∀ f, F ≤ f → patchVnode f h1 o n = .ok (bindFrom o n, h1)) :
    ∀ k i : Nat, i + k = ocs.length →
      ∃ F, ∀ f, F ≤ f →
        whileLoop f p ocs (copyState h ocs ncs i) = .ok (copyState h ocs ncs ocs.length) := by
  have hlen : ocs.length = ncs.length := copyOfAll_length ocs ncs hcopy
  intro k
  induction k with
  | zero =>
    intro i hi
    have hi' : i = ocs.length := by omega
    subst hi'
    have hrun : (copyState h ocs ncs ocs.length).running = false := by
      simp [Loop.running, copyState]
    refine ⟨0, fun f _ => ?_⟩
    cases f <;> simp [whileLoop, hrun]
  | succ k ih =>
    intro i hi
    have hio : i < ocs.length := by omega
    have hin : i < ncs.length := by omega
    have ho : ocs[i]? = some ocs[i] := List.getElem?_eq_getElem hio
    have hn : ncs[i]? = some ncs[i] := List.getElem?_eq_getElem hin
    have hc : copyOf ocs[i] ncs[i] = true := copyOfAll_get ocs ncs i _ _ hcopy ho hn
    have hw : wellFormed ncs[i] = true := wellFormedAll_get ncs i _ hwf hn
    obtain ⟨F1, hF1⟩ := hall ocs[i] (List.getElem_mem hio) ncs[i] h hc hw
    obtain ⟨F2, hF2⟩ := ih (i + 1) (by omega)
    have hrun : (copyState h ocs ncs i).running = true := by
      simp only [Loop.running, copyState, Bool.and_eq_true, decide_eq_true_eq]
      omega
    refine ⟨max F1 F2 + 1, fun f hf => ?_⟩
    obtain ⟨g, rfl⟩ : ∃ g, f = g + 1 := ⟨f - 1, by omega⟩
    have hg1 : F1 ≤ g := by omega
    have hg2 : F2 ≤ g := by omega
    rw [whileLoop]
    simp only [hrun, if_true]
    rw [copy_step (patchVnode g) h p ocs ncs i _ _ ho hn hlen (copyOf_sameVnode _ _ hc)
      (hF1 g hg1)]
    exact hF2 g hg2

theorem copy_updateChildren (h : Host) (p : Option Nat) (ocs ncs : List VNode)
    (hcopy : copyOfAll ocs ncs = true) (hwf : wellFormedAll ncs = true)
    (hall : ∀ o, o ∈ ocs → ∀ (n : VNode) (h1 : Host), copyOf o n = true → wellFormed n = true →
      ∃ F, ∀ f, F ≤ f → patchVnode f h1 o n = .ok (bindFrom o n, h1)) :
    ∃ F, ∀ f, F ≤ f → updateChildren f h p ocs ncs = .ok (bindFromAll ocs ncs, h) := by
  have hlen : ocs.length = ncs.length := copyOfAll_length ocs ncs hcopy
  obtain ⟨F, hF⟩ := copy_loop h p ocs ncs hcopy hwf hall ocs.length 0 (by omega)
  have hinit : Loop.init h ocs ncs = copyState h ocs ncs 0 := by
    simp [Loop.init, copyState, bindPrefix]
  refine ⟨F + 1, fun f hf => ?_⟩
  obtain ⟨g, rfl⟩ : ∃ g, f = g + 1 := ⟨f - 1, by omega⟩
  rw [updateChildren, hinit, hF g (by omega)]
  have hcond : ¬ ((ocs.length : Int) ≤ (ocs.length : Int) - 1 ∨
      (ocs.length : Int) ≤ (ncs.length : Int) - 1) := by omega
  simp only [updateChildrenTail, copyState, hcond, if_false]
  rw [bindPrefix_all ocs.length ocs ncs (by omega)]

mutual
theorem copy_patchVnode : ∀ (o n : VNode) (h : Host),
    copyOf o n = true → wellFormed n = true →
    ∃ F, ∀ f, F ≤ f → patchVnode f h o n = .ok (bindFrom o n, h)
  | .mk oo ok ot ox op none oe, n, h => by
    intro hc _
    obtain ⟨no, nk, nt, nx, np, nc, ne⟩ := n
    cases nc with
    | some ac => simp [copyOf] at hc
    | none =>
      simp only [copyOf, Bool.and_eq_true, decide_eq_true_eq] at hc
      obtain ⟨⟨⟨hoid, _⟩, _⟩, htext⟩ := hc
      subst htext
      refine ⟨1, fun f hf => ?_⟩
      obtain ⟨g, rfl⟩ : ∃ g, f = g + 1 := ⟨f - 1, by omega⟩
      cases ox <;>
        simp [patchVnode, VNode.oid, VNode.setElm, VNode.elm, VNode.text, VNode.children,
          isUndef, hoid, bindFrom]
  | .mk oo ok ot ox op (some (oa, ocs)) oe, n, h => by
    intro hc hwf
    obtain ⟨no, nk, nt, nx, np, nc, ne⟩ := n
    cases nc with
    | none => simp [copyOf] at hc
    | some ac =>
      obtain ⟨na, ncs⟩ := ac
      simp only [copyOf, Bool.and_eq_true, decide_eq_true_eq] at hc
      obtain ⟨⟨⟨⟨⟨hoid, _⟩, _⟩, htext⟩, haid⟩, hcs⟩ := hc
      subst htext
      cases ox with
      | some t => simp [wellFormed] at hwf
      | none =>
        simp only [wellFormed, Bool.and_eq_true] at hwf
        obtain ⟨F, hF⟩ := copy_updateChildren h oe ocs ncs hcs hwf.2 (copy_all ocs)
        refine ⟨F + 1, fun f hf => ?_⟩
        obtain ⟨g, rfl⟩ : ∃ g, f = g + 1 := ⟨f - 1, by omega⟩
        have hg : F ≤ g := by omega
        simp [patchVnode, VNode.oid, VNode.setElm, VNode.elm, VNode.text, VNode.children,
          isUndef, hoid, haid, hF g hg, VNode.setItems, bindFrom]
theorem copy_all : ∀ (ocs : List VNode) (o : VNode), o ∈ ocs →
    ∀ (n : VNode) (h : Host), copyOf o n = true → wellFormed n = true →
    ∃ F, ∀ f, F ≤ f → patchVnode f h o n = .ok (bindFrom o n, h)
  | [], o => by
    intro ho
    simp at ho
  | c :: cs, o => by
    intro ho n h hc hwf
    rcases List.mem_cons.mp ho with heq | hmem
    · subst heq
      exact copy_patchVnode o n h hc hwf
    · exact copy_all cs o hmem n h hc hwf
end

/-! ## Termination of the diff -/

theorem weights_eq_sum : ∀ cs : List VNode, weights cs = (cs.map weight).sum + cs.length
  | [] => by simp [weights]
  | c :: cs => by
    simp [weights, weights_eq_sum cs]
    omega

theorem weights_congr (cs cs1 : List VNode) (hm : cs1.map weight = cs.map weight) :
    weights cs1 = weights cs := by
  have hl : cs1.length = cs.length := by
    have := congrArg List.length hm
    simpa using this
  rw [weights_eq_sum, weights_eq_sum, hm, hl]

theorem mem_weight : ∀ (cs : List VNode) (o : VNode), o ∈ cs → weight o + cs.length ≤ weights cs
  | [], o => by simp
  | c :: cs, o => by
    intro ho
    rcases List.mem_cons.mp ho with heq | hmem
    · subst heq
      have := weights_eq_sum cs
      simp [weights]
      omega
    · have := mem_weight cs o hmem
      simp [weights]
      omega

theorem weight_setElm (v : VNode) (e : Option Nat) : weight (v.setElm e) = weight v := by
  obtain ⟨o, k, t, x, p, c, e0⟩ := v
  rcases c with _ | ⟨a, cs⟩ <;> simp [VNode.setElm, weight]

theorem weight_setItems (v : VNode) (a : Nat) (cs cs1 : List VNode)
    (hc : v.children = some (a, cs)) (hm : cs1.map weight = cs.map weight) :
    weight (v.setItems cs1) = weight v := by
  obtain ⟨o, k, t, x, p, c, e0⟩ := v
  simp only [VNode.children] at hc
  subst hc
  simp [VNode.setItems, weight, weights_congr cs cs1 hm]

mutual
theorem weight_skeleton : ∀ v : VNode, weight (skeleton v) = weight v
  | .mk o k t x p none e => by simp [skeleton, weight]
  | .mk o k t x p (some (a, cs)) e => by simp [skeleton, weight, weights_skeletons cs]
theorem weights_skeletons : ∀ cs : List VNode, weights (skeletons cs) = weights cs
  | [] => by simp [skeletons]
  | c :: cs => by simp [skeletons, weights, weight_skeleton c, weights_skeletons cs]
end

theorem map_weight_set (l : List VNode) (i : Nat) (x y : VNode) (hy : l[i]? = some y)
    (hw : weight x = weight y) : (l.set i x).map weight = l.map weight := by
  apply List.ext_getElem?
  intro j
  by_cases hj : i = j
  · subst hj
    have hi : i < l.length := by
      rw [List.getElem?_eq_some_iff] at hy
      exact hy.1
    rw [List.getElem?_map, List.getElem?_set_self hi, List.getElem?_map, hy]
    simp [hw]
  · rw [List.getElem?_map, List.getElem?_set_ne hj, List.getElem?_map]

theorem ite_ok_error_fuel {α : Type} (c : Prop) [Decidable c] (a : α) (e : Err)
    (he : e ≠ .outOfFuel) :
    (if c then (Except.ok a : Except Err α) else .error e) ≠ .error .outOfFuel := by
  split <;> simp [he]

theorem insertBefore_fuel (h : Host) (p n : Nat) (r : Option Nat) :
    insertBefore h p n r ≠ .error .outOfFuel := by
  unfold insertBefore
  split
  · split
    · simp
    · split
      · simp
      · exact ite_ok_error_fuel _ _ _ (by decide)
  · simp

theorem jsInsertBefore_fuel (h : Host) (p n r : Option Nat) :
    jsInsertBefore h p n r ≠ .error .outOfFuel := by
  unfold jsInsertBefore
  split
  · exact insertBefore_fuel _ _ _ _
  · simp

theorem removeChild_fuel (h : Host) (p c : Nat) : removeChild h p c ≠ .error .outOfFuel := by
  unfold removeChild
  split
  · split <;> simp
  · simp

theorem jsRemoveChild_fuel (h : Host) (p c : Option Nat) :
    jsRemoveChild h p c ≠ .error .outOfFuel := by
  unfold jsRemoveChild
  split
  · exact removeChild_fuel _ _ _
  · simp

theorem setTextContent_fuel (h : Host) (n : Nat) (t : String) :
    setTextContent h n t ≠ .error .outOfFuel := by
  unfold setTextContent
  split
  · simp
  · split
    · simp
    · simp only []
      split <;> simp

theorem error_ne_fuel {α β : Type} {x : Except Err α} {er : Err} (hx : x = .error er)
    (hne : x ≠ .error .outOfFuel) : (Except.error er : Except Err β) ≠ .error .outOfFuel := by
  intro hc
  cases hc
  exact hne hx

mutual
theorem oids_skeleton : ∀ v : VNode, oids (skeleton v) = oids v
  | .mk o k t x p none e => by simp [skeleton, oids]
  | .mk o k t x p (some (a, cs)) e => by simp [skeleton, oids, oidsAll_skeletons cs]
theorem oidsAll_skeletons : ∀ cs : List VNode, oidsAll (skeletons cs) = oidsAll cs
  | [] => by simp [skeletons]
  | c :: cs => by simp [skeletons, oidsAll, oids_skeleton c, oidsAll_skeletons cs]
end

theorem createElement_fuel (h : Host) (t : Option String) :
    createElement h t ≠ .error .outOfFuel := by
  unfold createElement
  exact ite_ok_error_fuel _ _ _ (by decide)

theorem setAttribute_fuel (h : Host) (n : Nat) (k v : String) :
    setAttribute h n k v ≠ .error .outOfFuel := by
  unfold setAttribute
  split
  · simp
  · split
    · simp
    · exact ite_ok_error_fuel _ _ _ (by decide)

theorem setStyle_fuel : ∀ (st : List (String × String)) (h : Host) (e : Nat),
    setStyle h e st ≠ .error .outOfFuel
  | [], h, e => by simp [setStyle]
  | (k, v) :: rest, h, e => by
    rw [setStyle]
    cases hs : setAttribute h e k v with
    | error er => exact error_ne_fuel hs (setAttribute_fuel _ _ _ _)
    | ok h1 => exact setStyle_fuel rest h1 e

mutual
theorem createElm_facts : ∀ (v : VNode) (h : Host),
    createElm h v ≠ .error .outOfFuel ∧
    ∀ v1 h1, createElm h v = .ok (v1, h1) → skeleton v1 = skeleton v
  | .mk o k t (some s) p c e, h => by
    refine ⟨by simp [createElm], ?_⟩
    intro v1 h1 hr
    simp only [createElm, Except.ok.injEq, Prod.mk.injEq] at hr
    rw [← hr.1]
    cases c with
    | none => simp [skeleton]
    | some ac => obtain ⟨a, cs⟩ := ac; simp [skeleton]
  | .mk o k t none p none e, h => by
    simp only [createElm]
    cases hce : createElement h t with
    | error er =>
      exact ⟨error_ne_fuel hce (createElement_fuel _ _), fun v1 h1 hr => by simp at hr⟩
    | ok r =>
      simp only []
      rw [styleOf_inline]
      cases hst : setStyle r.2 r.1 (styleOf p) with
      | error er =>
        exact ⟨error_ne_fuel hst (setStyle_fuel _ _ _), fun v1 h1 hr => by simp at hr⟩
      | ok h2 =>
        refine ⟨by simp, ?_⟩
        intro v1 h1 hr
        simp only [Except.ok.injEq, Prod.mk.injEq] at hr
        rw [← hr.1]
        simp [skeleton]
  | .mk o k t none p (some (a, cs)) e, h => by
    simp only [createElm]
    cases hce : createElement h t with
    | error er =>
      exact ⟨error_ne_fuel hce (createElement_fuel _ _), fun v1 h1 hr => by simp at hr⟩
    | ok r =>
      simp only []
      rw [styleOf_inline]
      cases hst : setStyle r.2 r.1 (styleOf p) with
      | error er =>
        exact ⟨error_ne_fuel hst (setStyle_fuel _ _ _), fun v1 h1 hr => by simp at hr⟩
      | ok h2 =>
        simp only []
        obtain ⟨hf, hsk⟩ := createChildren_facts cs h2 r.1
        cases hcc : createChildren h2 r.1 cs with
        | error er => exact ⟨error_ne_fuel hcc hf, fun v1 h1 hr => by simp at hr⟩
        | ok q =>
          obtain ⟨cs1, h3⟩ := q
          refine ⟨by simp, ?_⟩
          intro v1 h1 hr
          simp only [Except.ok.injEq, Prod.mk.injEq] at hr
          rw [← hr.1]
          simp [skeleton, hsk cs1 h3 hcc]
theorem createChildren_facts : ∀ (cs : List VNode) (h : Host) (e : Nat),
    createChildren h e cs ≠ .error .outOfFuel ∧
    ∀ cs1 h1, createChildren h e cs = .ok (cs1, h1) → skeletons cs1 = skeletons cs
  | [], h, e => by
    refine ⟨by simp [createChildren], ?_⟩
    intro cs1 h1 hr
    simp only [createChildren, Except.ok.injEq, Prod.mk.injEq] at hr
    rw [← hr.1]
  | c :: cs, h, e => by
    rw [createChildren]
    obtain ⟨hf, hsk⟩ := createElm_facts c h
    cases hce : createElm h c with
    | error er => exact ⟨error_ne_fuel hce hf, fun cs1 h1 hr => by simp at hr⟩
    | ok q =>
      obtain ⟨c1, h1⟩ := q
      simp only []
      cases hj : jsInsertBefore h1 (some e) c1.elm none with
      | error er =>
        exact ⟨error_ne_fuel hj (jsInsertBefore_fuel _ _ _ _), fun cs1 h1 hr => by simp at hr⟩
      | ok h2 =>
        simp only []
        obtain ⟨hf2, hsk2⟩ := createChildren_facts cs h2 e
        cases hcc : createChildren h2 e cs with
        | error er => exact ⟨error_ne_fuel hcc hf2, fun cs1 h1 hr => by simp at hr⟩
        | ok q2 =>
          obtain ⟨cs1, h3⟩ := q2
          refine ⟨by simp, ?_⟩
          intro cs2 h4 hr
          simp only [Except.ok.injEq, Prod.mk.injEq] at hr
          rw [← hr.1]
          simp [skeletons, hsk c1 h1 hce, hsk2 cs1 h3 hcc]
end

theorem createElm_fuel (h : Host) (v : VNode) : createElm h v ≠ .error .outOfFuel :=
  (createElm_facts v h).1

theorem createElm_weight (h h1 : Host) (v v1 : VNode) (hr : createElm h v = .ok (v1, h1)) :
    weight v1 = weight v := by
  rw [← weight_skeleton v1, (createElm_facts v h).2 v1 h1 hr, weight_skeleton]

theorem addVnodesLoop_fuel (parentElm refNode : Option Nat) :
    ∀ (n : Nat) (i : Int) (h : Host) (vs : List VNode),
      addVnodesLoop parentElm refNode n i h vs ≠ .error .outOfFuel
  | 0, _, _, _ => by simp [addVnodesLoop]
  | n + 1, i, h, vs => by
    rw [addVnodesLoop]
    cases at? vs i with
    | none => simp
    | some v =>
      cases parentElm with
      | none => simp
      | some pe =>
        simp only []
        cases hrun : createElm h v with
        | error er => exact error_ne_fuel hrun (createElm_fuel _ _)
        | ok r =>
          obtain ⟨v1, h1⟩ := r
          simp only []
          cases hj : jsInsertBefore h1 (some pe) v1.elm refNode with
          | error er => exact error_ne_fuel hj (jsInsertBefore_fuel _ _ _ _)
          | ok h2 => exact addVnodesLoop_fuel (some pe) refNode n (i + 1) h2 _

theorem addVnodesLoop_weight (parentElm refNode : Option Nat) :
    ∀ (n : Nat) (i : Int) (h h1 : Host) (vs vs1 : List VNode),
      addVnodesLoop parentElm refNode n i h vs = .ok (vs1, h1) →
      vs1.map weight = vs.map weight
  | 0, _, _, _, _, _ => by
    intro hr
    simp [addVnodesLoop] at hr
    rw [hr.1]
  | n + 1, i, h, h1, vs, vs1 => by
    intro hr
    rw [addVnodesLoop] at hr
    cases hat : at? vs i with
    | none => simp [hat] at hr
    | some v =>
      cases parentElm with
      | none => simp [hat] at hr
      | some pe =>
        cases hrun : createElm h v with
        | error er => simp [hat, hrun] at hr
        | ok r =>
          obtain ⟨v1, h2⟩ := r
          simp only [hat, hrun] at hr
          cases hj : jsInsertBefore h2 (some pe) v1.elm refNode with
          | error er => simp [hj] at hr
          | ok h3 =>
            simp only [hj] at hr
            have hw := addVnodesLoop_weight (some pe) refNode n (i + 1) h3 h1 _ vs1 hr
            rw [hw]
            have hi : ¬ i < 0 := by
              intro hneg
              simp [at?, hneg] at hat
            have hat1 : vs[i.toNat]? = some v := by simpa [at?, hi] using hat
            exact map_weight_set vs i.toNat v1 v hat1 (createElm_weight h h2 v v1 hrun)

theorem removeVnodesLoop_fuel (parentElm : Option Nat) (vnodes : List VNode) :
    ∀ (n : Nat) (i : Int) (h : Host),
      removeVnodesLoop parentElm vnodes n i h ≠ .error .outOfFuel
  | 0, _, _ => by simp [removeVnodesLoop]
  | n + 1, i, h => by
    rw [removeVnodesLoop]
    cases at? vnodes i with
    | none => exact removeVnodesLoop_fuel parentElm vnodes n (i + 1) h
    | some v =>
      simp only []
      cases hj : jsRemoveChild h parentElm v.elm with
      | error er =>
        simp only []
        intro hc
        cases hc
        exact jsRemoveChild_fuel _ _ _ hj
      | ok h1 => exact removeVnodesLoop_fuel parentElm vnodes n (i + 1) h1

theorem createKeyToOldIdxLoop_fuel (children : List VNode) :
    ∀ (n : Nat) (i : Int) (m : List (Option String × Int)),
      createKeyToOldIdxLoop children n i m ≠ .error .outOfFuel
  | 0, _, _ => by simp [createKeyToOldIdxLoop]
  | n + 1, i, m => by
    rw [createKeyToOldIdxLoop]
    cases at? children i with
    | none => simp
    | some c => exact createKeyToOldIdxLoop_fuel children n (i + 1) _

theorem keyToIdxOnce_fuel (oldCh : List VNode) (st : Loop) :
    keyToIdxOnce oldCh st ≠ .error .outOfFuel := by
  unfold keyToIdxOnce
  split
  · exact createKeyToOldIdxLoop_fuel _ _ _ _
  · simp

theorem updateChildrenTail_fuel (p : Option Nat) (oldCh : List VNode) (st : Loop) :
    updateChildrenTail p oldCh st ≠ .error .outOfFuel := by
  unfold updateChildrenTail
  split
  · split
    · exact addVnodesLoop_fuel _ _ _ _ _ _
    · cases hr : removeVnodes st.host p oldCh (some st.oldStartIdx) (some st.oldEndIdx) with
      | error er =>
        simp only []
        intro hc
        cases hc
        exact removeVnodesLoop_fuel _ _ _ _ _ hr
      | ok h1 => simp
  · simp

theorem updateChildrenTail_weight (p : Option Nat) (oldCh : List VNode) (st : Loop)
    (c1 : List VNode) (h1 : Host) (hr : updateChildrenTail p oldCh st = .ok (c1, h1)) :
    c1.map weight = st.ch.map weight := by
  unfold updateChildrenTail at hr
  split at hr
  · split at hr
    · exact addVnodesLoop_weight _ _ _ _ _ _ _ _ hr
    · cases hrm : removeVnodes st.host p oldCh (some st.oldStartIdx) (some st.oldEndIdx) with
      | error er => simp [hrm] at hr
      | ok h2 =>
        simp [hrm] at hr
        rw [hr.1]
  · simp at hr
    rw [hr.1]

theorem at?_mem {α : Type} (l : List α) (j : Int) (x : α) (hx : at? l j = some x) : x ∈ l := by
  unfold at? at hx
  split at hx
  · simp at hx
  · exact List.getElem?_mem hx

theorem at?_ne_none {α : Type} (l : List α) (j : Int) (h0 : 0 ≤ j) (h1 : j < (l.length : Int)) :
    at? l j ≠ none := by
  unfold at?
  have hn : ¬ j < 0 := by omega
  simp only [hn, if_false]
  have : j.toNat < l.length := by omega
  simp [List.getElem?_eq_getElem this]

theorem deref_getElem? (ch : List VNode) (r : Option Nat) (v : VNode)
    (hd : deref ch r = some v) : ch[r.getD 0]? = some v := by
  cases r with
  | none => simp [deref] at hd
  | some i => simpa [deref] using hd

theorem deref_mem (ch : List VNode) (r : Option Nat) (v : VNode)
    (hd : deref ch r = some v) : v ∈ ch :=
  List.getElem?_mem (deref_getElem? ch r v hd)

theorem running_iff (st : Loop) :
    st.running = true ↔ (st.oldStartIdx ≤ st.oldEndIdx ∧ st.newStartIdx ≤ st.newEndIdx) := by
  simp [Loop.running]

/-- What `LoopInv` gives in a running state: both old variables hold entries
of the old array. -/
theorem LoopInv.vnodes {oldCh : List VNode} {st : Loop} (hinv : LoopInv oldCh st)
    (hrun : st.running = true) :
    ∃ os oe, st.oldStartVnode = some os ∧ st.oldEndVnode = some oe ∧ os ∈ oldCh ∧
      oe ∈ oldCh := by
  obtain ⟨h0, h1, he, ⟨j, hj⟩, hs⟩ := hinv
  rw [running_iff] at hrun
  have hsn := hs hrun.1
  cases hos : st.oldStartVnode with
  | none => exact absurd hos hsn
  | some os =>
    have hen : at? oldCh st.oldEndIdx ≠ none := at?_ne_none oldCh _ (by omega) h1
    cases hoe : at? oldCh st.oldEndIdx with
    | none => exact absurd hoe hen
    | some oe =>
      refine ⟨os, oe, rfl, by rw [he, hoe], ?_, at?_mem oldCh _ oe hoe⟩
      rw [hos] at hj
      exact at?_mem oldCh j os hj.symm

theorem loopInv_init (h : Host) (oldCh ch : List VNode) : LoopInv oldCh (Loop.init h oldCh ch) := by
  refine ⟨by simp [Loop.init], by simp [Loop.init], rfl, ⟨0, rfl⟩, ?_⟩
  intro hle
  simp only [Loop.init] at hle ⊢
  exact at?_ne_none oldCh 0 (le_refl 0) (by omega)

theorem whileStep_facts (pv : Host → VNode → VNode → Except Err (VNode × Host))
    (p : Option Nat) (oldCh : List VNode) (st : Loop)
    (hinv : LoopInv oldCh st) (hrun : st.running = true) :
    ((∀ o v, o ∈ oldCh → v ∈ st.ch → pv st.host o v ≠ .error .outOfFuel) →
      whileStep pv p oldCh st ≠ .error .outOfFuel) ∧
    (∀ st1, whileStep pv p oldCh st = .ok st1 →
      st1.measure < st.measure ∧ LoopInv oldCh st1 ∧
      ((∀ h o v v1 h1, pv h o v = .ok (v1, h1) → weight v1 = weight v) →
        st1.ch.map weight = st.ch.map weight)) := by
  obtain ⟨os, oe, hos, hoe, hosm, hoem⟩ := hinv.vnodes hrun
  obtain ⟨h0, hlt, he, ⟨j, hj⟩, hs⟩ := hinv
  rw [running_iff] at hrun
  obtain ⟨hr1, hr2⟩ := hrun
  have he1 : some oe = at? oldCh st.oldEndIdx := by rw [← hoe]; exact he
  have hj1 : some os = at? oldCh j := by rw [← hos]; exact hj
  unfold whileStep
  simp only [hos, hoe]
  cases hns : deref st.ch st.newStartVnode with
  | none => exact ⟨fun _ => by simp, fun st1 hst => by simp at hst⟩
  | some ns =>
    have hnsm : ns ∈ st.ch := deref_mem _ _ _ hns
    simp only []
    by_cases c1 : sameVnode os ns = true
    · simp only [c1, if_true]
      cases hp : pv st.host os ns with
      | error er =>
        exact ⟨fun H => error_ne_fuel hp (H os ns hosm hnsm), fun st1 hst => by simp at hst⟩
      | ok r =>
        refine ⟨fun _ => by simp, fun st1 hst => ?_⟩
        simp only [Except.ok.injEq] at hst
        subst hst
        refine ⟨?_, ⟨?_, hlt, he1, ⟨_, rfl⟩, ?_⟩, ?_⟩
        · simp only [Loop.measure]; omega
        · show 0 ≤ st.oldStartIdx + 1
          omega
        · intro hle
          exact at?_ne_none oldCh _ (by omega) (by
            have : st.oldStartIdx + 1 ≤ st.oldEndIdx := hle
            omega)
        · intro hw
          exact map_weight_set st.ch _ r.1 ns (deref_getElem? _ _ _ hns) (hw _ _ _ _ _ hp)
    · simp only [c1, Bool.false_eq_true, if_false]
      cases hne : deref st.ch st.newEndVnode with
      | none => exact ⟨fun _ => by simp, fun st1 hst => by simp at hst⟩
      | some ne =>
        have hnem : ne ∈ st.ch := deref_mem _ _ _ hne
        simp only []
        by_cases c2 : sameVnode oe ne = true
        · simp only [c2, if_true]
          cases hp : pv st.host oe ne with
          | error er =>
            exact ⟨fun H => error_ne_fuel hp (H oe ne hoem hnem), fun st1 hst => by simp at hst⟩
          | ok r =>
            refine ⟨fun _ => by simp, fun st1 hst => ?_⟩
            simp only [Except.ok.injEq] at hst
            subst hst
            refine ⟨?_, ⟨h0, ?_, rfl, ⟨j, hj1⟩, ?_⟩, ?_⟩
            · simp only [Loop.measure]; omega
            · show st.oldEndIdx - 1 < (oldCh.length : Int)
              omega
            · intro _
              simp
            · intro hw
              exact map_weight_set st.ch _ r.1 ne (deref_getElem? _ _ _ hne) (hw _ _ _ _ _ hp)
        · simp only [c2, Bool.false_eq_true, if_false]
          by_cases c3 : sameVnode oe ns = true
          · simp only [c3, if_true]
            cases hp : pv st.host oe ns with
            | error er =>
              exact ⟨fun H => error_ne_fuel hp (H oe ns hoem hnsm),
                fun st1 hst => by simp at hst⟩
            | ok r =>
              simp only []
              cases hji : jsInsertBefore r.2 p oe.elm os.elm with
              | error er =>
                exact ⟨fun _ => error_ne_fuel hji (jsInsertBefore_fuel _ _ _ _),
                  fun st1 hst => by simp at hst⟩
              | ok h2 =>
                refine ⟨fun _ => by simp, fun st1 hst => ?_⟩
                simp only [Except.ok.injEq] at hst
                subst hst
                refine ⟨?_, ⟨h0, ?_, rfl, ⟨_, rfl⟩, ?_⟩, ?_⟩
                · simp only [Loop.measure]; omega
                · show st.oldEndIdx - 1 < (oldCh.length : Int)
                  omega
                · intro hle
                  exact at?_ne_none oldCh _ h0 (by
                    have : st.oldStartIdx ≤ st.oldEndIdx - 1 := hle
                    omega)
                · intro hw
                  exact map_weight_set st.ch _ r.1 ns (deref_getElem? _ _ _ hns)
                    (hw _ _ _ _ _ hp)
          · simp only [c3, Bool.false_eq_true, if_false]
            by_cases c4 : sameVnode os ne = true
            · simp only [c4, if_true]
              cases hp : pv st.host oe ns with
              | error er =>
                exact ⟨fun H => error_ne_fuel hp (H oe ns hoem hnsm),
                  fun st1 hst => by simp at hst⟩
              | ok r =>
                simp only []
                cases hoel : oe.elm with
                | none => exact ⟨fun _ => by simp, fun st1 hst => by simp at hst⟩
                | some oeElm =>
                  simp only []
                  cases hji : jsInsertBefore r.2 p os.elm (nextSibling r.2 oeElm) with
                  | error er =>
                    exact ⟨fun _ => error_ne_fuel hji (jsInsertBefore_fuel _ _ _ _),
                      fun st1 hst => by simp at hst⟩
                  | ok h2 =>
                    refine ⟨fun _ => by simp, fun st1 hst => ?_⟩
                    simp only [Except.ok.injEq] at hst
                    subst hst
                    refine ⟨?_, ⟨?_, hlt, he1, ⟨_, rfl⟩, ?_⟩, ?_⟩
                    · simp only [Loop.measure]; omega
                    · show 0 ≤ st.oldStartIdx + 1
                      omega
                    · intro _
                      exact at?_ne_none oldCh _ (by omega) hlt
                    · intro hw
                      exact map_weight_set st.ch _ r.1 ns (deref_getElem? _ _ _ hns)
                        (hw _ _ _ _ _ hp)
            · simp only [c4, Bool.false_eq_true, if_false]
              cases hk : keyToIdxOnce oldCh st with
              | error er =>
                exact ⟨fun _ => error_ne_fuel hk (keyToIdxOnce_fuel _ _),
                  fun st1 hst => by simp at hst⟩
              | ok m =>
                simp only []
                cases hg : mapGet m ns.key with
                | none =>
                  simp only []
                  cases p with
                  | none => exact ⟨fun _ => by simp, fun st1 hst => by simp at hst⟩
                  | some pe =>
                    simp only []
                    cases hce : createElm st.host ns with
                    | error er =>
                      exact ⟨fun _ => error_ne_fuel hce (createElm_fuel _ _),
                        fun st1 hst => by simp at hst⟩
                    | ok r => exact ⟨fun _ => by simp, fun st1 hst => by simp at hst⟩
                | some idxInOld =>
                  simp only []
                  cases hat : at? oldCh idxInOld with
                  | none => exact ⟨fun _ => by simp, fun st1 hst => by simp at hst⟩
                  | some elmToMove =>
                    have hem : elmToMove ∈ oldCh := at?_mem _ _ _ hat
                    simp only []
                    cases hp : pv st.host elmToMove ns with
                    | error er =>
                      exact ⟨fun H => error_ne_fuel hp (H elmToMove ns hem hnsm),
                        fun st1 hst => by simp at hst⟩
                    | ok r =>
                      simp only []
                      cases hji : jsInsertBefore r.2 p elmToMove.elm os.elm with
                      | error er =>
                        exact ⟨fun _ => error_ne_fuel hji (jsInsertBefore_fuel _ _ _ _),
                          fun st1 hst => by simp at hst⟩
                      | ok h2 =>
                        refine ⟨fun _ => by simp, fun st1 hst => ?_⟩
                        simp only [Except.ok.injEq] at hst
                        subst hst
                        refine ⟨?_, ⟨h0, hlt, he1, ⟨j, hj1⟩, ?_⟩, ?_⟩
                        · simp only [Loop.measure]; omega
                        · intro _
                          simp
                        · intro hw
                          exact map_weight_set st.ch _ r.1 ns (deref_getElem? _ _ _ hns)
                            (hw _ _ _ _ _ hp)

theorem weight_step (f : Nat) :
    (∀ h o v v1 h1, patchVnode f h o v = .ok (v1, h1) → weight v1 = weight v) ∧
    (∀ h p o c c1 h1, updateChildren f h p o c = .ok (c1, h1) →
      c1.map weight = c.map weight) ∧
    (∀ p o st st1, LoopInv o st → whileLoop f p o st = .ok st1 →
      st1.ch.map weight = st.ch.map weight) := by
  induction f with
  | zero =>
    refine ⟨fun h o v v1 h1 hr => by simp [patchVnode] at hr,
      fun h p o c c1 h1 hr => by simp [updateChildren] at hr, fun p o st st1 _ hr => ?_⟩
    by_cases hrun : st.running = true
    · simp [whileLoop, hrun] at hr
    · simp [whileLoop, hrun] at hr
      rw [hr]
  | succ f ih =>
    obtain ⟨ihP, ihU, ihW⟩ := ih
    refine ⟨?_, ?_, ?_⟩
    · intro h o v v1 h1 hr
      rw [patchVnode] at hr
      by_cases hoid : o.oid = v.oid
      · simp [hoid] at hr
        rw [← hr.1, weight_setElm]
      · by_cases htext : isUndef (v.setElm o.elm).text = true
        · cases hoc : o.children with
          | none =>
            cases hc : (v.setElm o.elm).children with
            | none =>
              simp [hoid, htext, hoc, hc] at hr
              rw [← hr.1, weight_setElm]
            | some nc =>
              obtain ⟨na, ncs⟩ := nc
              simp only [hoid, htext, hoc, hc, if_false, if_true] at hr
              cases ha : addVnodes h (v.setElm o.elm).elm ncs none 0 ((ncs.length : Int) - 1) with
              | error er => simp [ha] at hr
              | ok r =>
                simp only [ha, Except.ok.injEq, Prod.mk.injEq] at hr
                rw [← hr.1, weight_setItems _ na ncs r.1 hc
                  (addVnodesLoop_weight _ _ _ _ _ _ _ _ ha), weight_setElm]
          | some oc =>
            obtain ⟨oa, ocs⟩ := oc
            cases hc : (v.setElm o.elm).children with
            | none =>
              simp only [hoid, htext, hoc, hc, if_false, if_true] at hr
              cases hrm : removeVnodes h (v.setElm o.elm).elm ocs none none with
              | error er => simp [hrm] at hr
              | ok r =>
                simp only [hrm, Except.ok.injEq, Prod.mk.injEq] at hr
                rw [← hr.1, weight_setElm]
            | some nc =>
              obtain ⟨na, ncs⟩ := nc
              by_cases ha : oa = na
              · simp [hoid, htext, hoc, hc, ha] at hr
                rw [← hr.1, weight_setElm]
              · simp only [hoid, htext, hoc, hc, if_false, if_true, ne_eq, ha,
                  not_false_eq_true] at hr
                cases hu : updateChildren f h (v.setElm o.elm).elm ocs ncs with
                | error er => simp [hu] at hr
                | ok r =>
                  simp only [hu, Except.ok.injEq, Prod.mk.injEq] at hr
                  rw [← hr.1, weight_setItems _ na ncs r.1 hc (ihU _ _ _ _ _ _ hu),
                    weight_setElm]
        · simp only [hoid, htext, if_false, Bool.false_eq_true] at hr
          split at hr
          · split at hr
            · split at hr
              · simp at hr
              · simp only [Except.ok.injEq, Prod.mk.injEq] at hr
                rw [← hr.1, weight_setElm]
            · simp at hr
          · simp only [Except.ok.injEq, Prod.mk.injEq] at hr
            rw [← hr.1, weight_setElm]
    · intro h p o c c1 h1 hr
      rw [updateChildren] at hr
      cases hw : whileLoop f p o (Loop.init h o c) with
      | error er => simp [hw] at hr
      | ok st =>
        simp only [hw] at hr
        rw [updateChildrenTail_weight p o st c1 h1 hr,
          ihW p o _ st (loopInv_init h o c) hw]
        rfl
    · intro p o st st1 hinv hr
      rw [whileLoop] at hr
      by_cases hrun : st.running = true
      · simp only [hrun, if_true] at hr
        cases hs : whileStep (patchVnode f) p o st with
        | error er => simp [hs] at hr
        | ok st2 =>
          simp only [hs] at hr
          obtain ⟨_, hinv2, hw2⟩ := (whileStep_facts (patchVnode f) p o st hinv hrun).2 st2 hs
          rw [ihW p o st2 st1 hinv2 hr, hw2 ihP]
      · simp [hrun] at hr
        rw [hr]

theorem weight_of_children (v : VNode) (a : Nat) (cs : List VNode)
    (hc : v.children = some (a, cs)) : weight v = 2 + weights cs := by
  obtain ⟨o, k, t, x, p, c, e⟩ := v
  simp only [VNode.children] at hc
  subst hc
  simp [weight]

theorem weight_ge_two (v : VNode) : 2 ≤ weight v := by
  obtain ⟨o, k, t, x, p, c, e⟩ := v
  rcases c with _ | ⟨a, cs⟩ <;> simp [weight]

theorem whileLoop_ends (oldCh : List VNode) (K B : Nat) (p : Option Nat)
    (hIH : ∀ g, g < B → ∀ o v h, weight o + weight v ≤ g →
      patchVnode g h o v ≠ .error .outOfFuel) :
    ∀ (m g : Nat) (st : Loop), g < B → LoopInv oldCh st →
      (∀ o, o ∈ oldCh → ∀ w, w ∈ st.ch.map weight → weight o + w ≤ K) →
      st.measure + 1 ≤ (m : Int) → m + K ≤ g →
      whileLoop g p oldCh st ≠ .error .outOfFuel := by
  intro m
  induction m with
  | zero =>
    intro g st _ _ _ hm _
    have hrun : st.running = false := by
      cases hr : st.running with
      | false => rfl
      | true =>
        rw [running_iff] at hr
        simp only [Loop.measure] at hm
        omega
    cases g <;> simp [whileLoop, hrun]
  | succ m ih =>
    intro g st hg hinv hK hm hfuel
    by_cases hrun : st.running = true
    · obtain ⟨g1, rfl⟩ : ∃ g1, g = g1 + 1 := ⟨g - 1, by omega⟩
      rw [whileLoop]
      simp only [hrun, if_true]
      have hfacts := whileStep_facts (patchVnode g1) p oldCh st hinv hrun
      cases hs : whileStep (patchVnode g1) p oldCh st with
      | error er =>
        refine error_ne_fuel hs (hfacts.1 ?_)
        intro o v ho hv
        exact hIH g1 (by omega) o v st.host
          (le_trans (hK o ho (weight v) (List.mem_map_of_mem weight hv)) (by omega))
      | ok st2 =>
        obtain ⟨hlt, hinv2, hw2⟩ := hfacts.2 st2 hs
        have hmap := hw2 (weight_step g1).1
        refine ih g1 st2 (by omega) hinv2 ?_ (by omega) (by omega)
        rw [hmap]
        exact hK
    · have hrun1 : st.running = false := by simpa using hrun
      cases g <;> simp [whileLoop, hrun1]

theorem updateChildren_ends (B : Nat)
    (hIH : ∀ g, g < B → ∀ o v h, weight o + weight v ≤ g →
      patchVnode g h o v ≠ .error .outOfFuel)
    (f : Nat) (h : Host) (p : Option Nat) (ocs ncs : List VNode) (hf : f < B)
    (hfuel : weights ocs + weights ncs + 1 ≤ f) :
    updateChildren f h p ocs ncs ≠ .error .outOfFuel := by
  obtain ⟨g, rfl⟩ : ∃ g, f = g + 1 := ⟨f - 1, by omega⟩
  rw [updateChildren]
  have hlo := weights_eq_sum ocs
  have hln := weights_eq_sum ncs
  have hloop : whileLoop g p ocs (Loop.init h ocs ncs) ≠ .error .outOfFuel := by
    refine whileLoop_ends ocs (weights ocs + weights ncs - ocs.length - ncs.length) B p hIH
      (ocs.length + ncs.length) g _ (by omega) (loopInv_init h ocs ncs) ?_ ?_ (by omega)
    · intro o ho w hw
      obtain ⟨v, hv, rfl⟩ := List.mem_map.mp hw
      have h1 := mem_weight ocs o ho
      have h2 := mem_weight ncs v hv
      omega
    · simp only [Loop.measure, Loop.init]
      push_cast
      omega
  cases hw : whileLoop g p ocs (Loop.init h ocs ncs) with
  | error er => exact error_ne_fuel hw hloop
  | ok st => exact updateChildrenTail_fuel p ocs st

theorem patchVnode_fuel_enough : ∀ (f : Nat) (o v : VNode) (h : Host),
    weight o + weight v ≤ f → patchVnode f h o v ≠ .error .outOfFuel := by
  intro f
  induction f using Nat.strong_induction_on with
  | _ f ih =>
    intro o v h hf
    have ho2 := weight_ge_two o
    obtain ⟨g, rfl⟩ : ∃ g, f = g + 1 := ⟨f - 1, by omega⟩
    rw [patchVnode]
    by_cases hoid : o.oid = v.oid
    · simp [hoid]
    · by_cases htext : isUndef (v.setElm o.elm).text = true
      · cases hoc : o.children with
        | none =>
          cases hc : (v.setElm o.elm).children with
          | none => simp [hoid, htext, hoc, hc]
          | some nc =>
            obtain ⟨na, ncs⟩ := nc
            simp only [hoid, htext, hoc, hc, if_false, if_true]
            cases ha : addVnodes h (v.setElm o.elm).elm ncs none 0 ((ncs.length : Int) - 1) with
            | error er => exact error_ne_fuel ha (addVnodesLoop_fuel _ _ _ _ _ _)
            | ok r => simp
        | some oc =>
          obtain ⟨oa, ocs⟩ := oc
          cases hc : (v.setElm o.elm).children with
          | none =>
            simp only [hoid, htext, hoc, hc, if_false, if_true]
            cases hrm : removeVnodes h (v.setElm o.elm).elm ocs none none with
            | error er => simp [removeVnodes] at hrm
            | ok r => simp
          | some nc =>
            obtain ⟨na, ncs⟩ := nc
            by_cases ha : oa = na
            · simp [hoid, htext, hoc, hc, ha]
            · simp only [hoid, htext, hoc, hc, if_false, if_true, ne_eq, ha, not_false_eq_true]
              have hwo := weight_of_children o oa ocs hoc
              have hwv := weight_of_children _ na ncs hc
              rw [weight_setElm] at hwv
              have hu : updateChildren g h (v.setElm o.elm).elm ocs ncs ≠ .error .outOfFuel :=
                updateChildren_ends (g + 1) (fun g1 hg1 => ih g1 hg1) g h _ ocs ncs
                  (by omega) (by omega)
              cases hur : updateChildren g h (v.setElm o.elm).elm ocs ncs with
              | error er => exact error_ne_fuel hur hu
              | ok r => simp
      · simp only [hoid, htext, if_false, Bool.false_eq_true]
        split
        · split
          · cases hst : setTextContent h _ _ with
            | error er => exact error_ne_fuel hst (setTextContent_fuel _ _ _)
            | ok r => simp
          · simp
        · simp

theorem updateChildren_fuel_enough (f : Nat) (h : Host) (p : Option Nat) (ocs ncs : List VNode)
    (hfuel : weights ocs + weights ncs + 1 ≤ f) :
    updateChildren f h p ocs ncs ≠ .error .outOfFuel :=
  updateChildren_ends (f + 1) (fun g _ => patchVnode_fuel_enough g) f h p ocs ncs
    (by omega) hfuel

theorem patch_fuel_enough (f : Nat) (h : Host) (old new : Option VNode)
    (hfuel : ∀ o v, old = some o → new = some v → weight o + weight v ≤ f) :
    patch f h old new ≠ .error .outOfFuel := by
  unfold patch
  cases old with
  | none =>
    cases new with
    | none => simp
    | some v =>
      simp only []
      cases hce : createElm h v with
      | error er => exact error_ne_fuel hce (createElm_fuel _ _)
      | ok r => simp
  | some o =>
    cases new with
    | none => simp
    | some v =>
      simp only []
      by_cases hs : sameVnode o v = true
      · simp only [hs, if_true]
        cases hp : patchVnode f h o v with
        | error er => exact error_ne_fuel hp (patchVnode_fuel_enough f o v h (hfuel o v rfl rfl))
        | ok r => simp
      · simp only [hs, Bool.false_eq_true, if_false]
        cases o.elm with
        | none => simp
        | some elm =>
          simp only []
          cases hce : createElm h v with
          | error er => exact error_ne_fuel hce (createElm_fuel _ _)
          | ok r =>
            obtain ⟨v1, h1⟩ := r
            simp only []
            cases parentNode h elm with
            | none => simp
            | some pe =>
              simp only []
              cases hrm : removeChild h1 pe elm with
              | error er => exact error_ne_fuel hrm (removeChild_fuel _ _ _)
              | ok h2 =>
                simp only []
                cases hji : jsInsertBefore h2 (some pe) v1.elm (nextSibling h2 elm) with
                | error er => exact error_ne_fuel hji (jsInsertBefore_fuel _ _ _ _)
                | ok h3 => simp

theorem updateChildren_settles (f n : Nat) (h : Host) (p : Option Nat) (o c : List VNode) :
    settles (updateChildren f h p o c) (updateChildren (f + n) h p o c) := by
  induction n with
  | zero => exact settles_refl _
  | succ n ih => exact settles_trans ih ((fuel_step (f + n)).2.1 h p o c)

theorem settles_eq {α : Type} {x y : Except Err α} (hxy : settles x y)
    (hx : x ≠ .error .outOfFuel) : y = x := by
  rcases hxy with h | h
  · exact absurd h hx
  · exact h.symm

/-! ## The claims -/

/-- C1. Old children `[A, B]` (keys `a`, `b`, host nodes `1`, `2` under host
node `0`), new children `[A]`: with any fuel from 20 on `patch` returns, and the
host children are still `[1, 2]`; the host node of `B` is left over, no host
call was made. -/
theorem updateChildren_leaves_trailing_old_child (n : Nat) :
    diffOutcome (20 + n) (el 0 "ul" 100 [li 1 "a", li 2 "b"]) (el 10 "ul" 101 [li 11 "a"])
      = .ok { oldBound := true, bound := true, rootElm := some 0, elms := [some 1],
              hostChildren := [1, 2], calls := [] } :=
  settles_ok (diffOutcome_settles 20 n _ _) (by decide!)

/-- C2. Old children `p, span, em` (all bound by the mount), new children
`span, em, p` where the new `p` has a text child: with any fuel from 20 on
`patch` returns a new tree in which `elm` is not bound everywhere (the new `p`
and its text child were never patched or created). -/
theorem patch_returns_unbound_node (n : Nat) :
    diffOutcome (20 + n) (el 0 "div" 100 [leaf 1 "p", leaf 2 "span", leaf 3 "em"])
        (el 10 "div" 101 [leaf 12 "span", leaf 13 "em", el 11 "p" 102 [txt 14 "hi"]])
      = .ok { oldBound := true, bound := false, rootElm := some 0,
              elms := [some 2, some 3, none], hostChildren := [2, 3, 1],
              calls := [.insertBefore 0 1 none] } :=
  settles_ok (diffOutcome_settles 20 n _ _) (by decide!)

/-- C3, as the claim has it, fails: the trees `<>` (an element whose tag is
the empty string), `div[<my tag>]` and `div` with the style `{ 'font size':
'12px' }` meet the invariant of the data model, and `patch(undefined, T)` does
not return on them: `document.createElement`, and `setAttribute` for the style
name, throw `InvalidCharacterError`. -/
theorem first_mount_throws_on_invalid_name :
    wellFormed (leaf 0 "") = true ∧
    wellFormed (el 0 "div" 100 [leaf 1 "my tag"]) = true ∧
    wellFormed (withProps 0 "div" spacedStyleProps) = true ∧
    patch 0 Host.empty none (some (leaf 0 "")) = .error .invalidCharacterError ∧
    patch 0 Host.empty none (some (el 0 "div" 100 [leaf 1 "my tag"]))
      = .error .invalidCharacterError ∧
    patch 0 Host.empty none (some (withProps 0 "div" spacedStyleProps))
      = .error .invalidCharacterError :=
  ⟨rfl, rfl, rfl, rfl, rfl, rfl⟩

/-- C3, amended. First mount: for every tree `T` that meets the invariant of
the data model, in which every tag and every style name is a name and no
object occurs twice, and every host, `patch(undefined, T)` returns `T` with
nothing changed but `elm`; the host nodes it is bound to are new (their handles
start at the former size of the host), a text node is bound to a host text node
with its text, an element node to a host element whose local name is its tag in
lower case and whose children are the host nodes of its child array in the same
order; `elm` is bound on every node; the host nodes that existed before are
untouched. -/
theorem patch_first_mount (fuel : Nat) (h : Host) (T : VNode) (hwf : wellFormed T = true)
    (hval : validNames T = true) (hobj : distinctObjects T = true) :
    ∃ T1 h1, patch fuel h none (some T) = .ok (some T1, h1) ∧
      skeleton T1 = skeleton T ∧
      distinctObjects T1 = true ∧
      mounted h1 h.nodes.length T1 = true ∧
      allBound T1 = true ∧
      ∀ i, i < h.nodes.length → h1.node? i = h.node? i := by
  obtain ⟨T1, h1, hrun, _, _, hfr, _, hsk, hm, hb⟩ := createElm_spec T h hval
  refine ⟨T1, h1, ?_, hsk, ?_, hm, hb hwf, hfr⟩
  · simp [patch, hrun]
  · rw [distinctObjects, ← oids_skeleton T1, hsk, oids_skeleton]
    exact hobj

/-- C3, amended, at a `DIV` with a keyed `li` and a text child, mounted on the
empty host. -/
theorem patch_first_mount_witness :
    wellFormed (el 0 "DIV" 100 [li 1 "a", txt 2 "hello"]) = true ∧
    validNames (el 0 "DIV" 100 [li 1 "a", txt 2 "hello"]) = true ∧
    distinctObjects (el 0 "DIV" 100 [li 1 "a", txt 2 "hello"]) = true ∧
    ∃ T1 h1, patch 0 Host.empty none (some (el 0 "DIV" 100 [li 1 "a", txt 2 "hello"]))
        = .ok (some T1, h1) ∧
      skeleton T1 = skeleton (el 0 "DIV" 100 [li 1 "a", txt 2 "hello"]) ∧
      distinctObjects T1 = true ∧
      mounted h1 Host.empty.nodes.length T1 = true ∧
      allBound T1 = true ∧
      ∀ i, i < Host.empty.nodes.length → h1.node? i = Host.empty.node? i :=
  ⟨rfl, rfl, by decide,
    patch_first_mount 0 Host.empty (el 0 "DIV" 100 [li 1 "a", txt 2 "hello"]) rfl rfl
      (by decide)⟩

/-- C4. Old children `[A, B, C]` with keys `a, b, c` (host nodes `1, 2, 3`),
new children `[A, C]`: the new `A` and `C` reuse host nodes `1` and `3`, no host
call is made, and host node `2` of the deleted `B` is still a child of the
parent. -/
theorem updateChildren_keeps_deleted_middle_child (n : Nat) :
    diffOutcome (20 + n) (el 0 "ul" 100 [li 1 "a", li 2 "b", li 3 "c"])
        (el 10 "ul" 101 [li 11 "a", li 13 "c"])
      = .ok { oldBound := true, bound := true, rootElm := some 0, elms := [some 1, some 3],
              hostChildren := [1, 2, 3], calls := [] } :=
  settles_ok (diffOutcome_settles 20 n _ _) (by decide!)

/-- C5. Old children `[A]` with key `a`, new children `[X]` with key `x`
(disjoint key sets): the run ends in a `TypeError`, whatever the fuel from 3
on; `insertBefore` is handed the virtual node `oldStartVnode` where a host node
is required. -/
theorem updateChildren_disjoint_keys_throws (n : Nat) :
    diffOutcome (n + 3) (el 0 "ul" 100 [li 1 "a"]) (el 10 "ul" 101 [li 11 "x"])
      = .error .typeError :=
  rfl

/-- C6. A `div` with host children `[1, 2]` (a `span` and a `p`); the `span`
is patched against an `h1`, which is not the same node: the fresh host node `3`
is placed last, the host children become `[2, 3]` and not `[3, 2]`. -/
theorem patch_replacement_goes_last (n : Nat) :
    childPatchOutcome (20 + n) (el 0 "div" 100 [leaf 1 "span", leaf 2 "p"]) 0 (leaf 11 "h1")
      = .ok { oldBound := true, bound := true, rootElm := some 3, elms := [],
              hostChildren := [2, 3],
              calls := [.createElement 3 (some "h1"), .removeChild 0 1,
                        .insertBefore 0 3 none] } :=
  settles_ok (childPatchOutcome_settles 20 n _ _ _) (by decide!)

/-- C7. Old children `[A, B, C]` with keys `k1, k2, k3` (host nodes `1, 2, 3`),
new children the rotation `[B, C, A]`: the host order becomes `2, 3, 1`, but the
new `A` is left without a host node (`elm` unbound); the new `B` was first
patched against the old `C`. -/
theorem updateChildren_rotation_leaves_unbound (n : Nat) :
    diffOutcome (20 + n) (el 0 "ul" 100 [li 1 "k1", li 2 "k2", li 3 "k3"])
        (el 10 "ul" 101 [li 12 "k2", li 13 "k3", li 11 "k1"])
      = .ok { oldBound := true, bound := false, rootElm := some 0,
              elms := [some 2, some 3, none], hostChildren := [2, 3, 1],
              calls := [.insertBefore 0 1 none] } :=
  settles_ok (diffOutcome_settles 20 n _ _) (by decide!)

/-- C8. Old `ul` with the child array `[A]` (host node `1`), new `ul` without
a child array: `patchVnode` makes no host call and host node `1` is still the
child of the `ul`. -/
theorem patchVnode_keeps_dropped_children (n : Nat) :
    diffOutcome (20 + n) (el 0 "ul" 100 [li 1 "a"]) (leaf 10 "ul")
      = .ok { oldBound := true, bound := true, rootElm := some 0, elms := [],
              hostChildren := [1], calls := [] } :=
  settles_ok (diffOutcome_settles 20 n _ _) (by decide!)

/-- C9. Old children `div, p, span` without keys (host nodes `1, 2, 3`), new
children `em` without a key: the four comparisons fail, the key index answers
index `1` for the absent key, the old `p` is patched against the new `em`, and
the new `em` is bound to host node `2`, the host node of the `p`; no host node
is created, and the final removal takes host nodes `1` and `2` out of the
parent, which keeps the `span` alone. -/
theorem updateChildren_reuses_unkeyed_through_index (n : Nat) :
    createKeyToOldIdx [leaf 1 "div", leaf 2 "p", leaf 3 "span"] 0 2 = .ok [(none, 1)] ∧
    mapGet [(none, 1)] (leaf 11 "em").key = some 1 ∧
    diffOutcome (20 + n) (el 0 "ul" 100 [leaf 1 "div", leaf 2 "p", leaf 3 "span"])
        (el 10 "ul" 101 [leaf 11 "em"])
      = .ok { oldBound := true, bound := true, rootElm := some 0, elms := [some 2],
              hostChildren := [3],
              calls := [.insertBefore 0 2 (some 1), .removeChild 0 1, .removeChild 0 2] } := by
  refine ⟨?_, ?_, ?_⟩
  · rfl
  · rfl
  · exact settles_ok (diffOutcome_settles 20 n _ _) (by decide!)

/-- C10. A text change is an in-place update: for an old text node bound to
a host text node `e` and a new text node (another object) with the same key and
a different text `t`, `patch(old, new)` returns the new node with `elm` bound to
`e`; the host has the same nodes, node `e` now carrying the text `t`, and the
only host call made is the write of `t` to the text content of `e`. -/
theorem patch_text_change_in_place (fuel : Nat) (h : Host) (old new : VNode) (e : Nat)
    (x : HostNode) (s t d : String)
    (hold : old.text = some s) (hnew : new.text = some t) (hne : s ≠ t)
    (hkey : old.key = new.key) (htagOld : old.tag = none) (htagNew : new.tag = none)
    (hobj : old.oid ≠ new.oid)
    (helm : old.elm = some e) (hnode : h.node? e = some x) (hkind : x.kind = .text d) :
    patch (fuel + 1) h (some old) (some new)
      = .ok (some (new.setElm (some e)),
          { nodes := h.nodes.set e { x with kind := .text t },
            log := h.log ++ [.setTextContent e t] }) := by
  obtain ⟨oo, ok, ot, ox, op, oc, oe⟩ := old
  obtain ⟨no, nk, nt, nx, np, nc, ne⟩ := new
  simp only [VNode.text, VNode.key, VNode.tag] at hold hnew hkey htagOld htagNew
  simp only [VNode.oid, VNode.elm] at hobj helm
  subst hold hnew hkey htagOld htagNew helm
  have hne1 : ¬ (some s = some t) := by simpa using hne
  simp [patch, sameVnode, patchVnode, VNode.key, VNode.tag, VNode.oid, VNode.elm, VNode.text,
    VNode.setElm, VNode.children, isUndef, hobj, hne1, setTextContent, hnode, hkind,
    Host.setNode, Host.record]

/-- C10, at the old text `foo` bound to host node `0` and the new text `bar`. -/
theorem patch_text_change_in_place_witness :
    patch 1 { nodes := [{ kind := .text "foo", attrs := [], children := [], parent := none }],
              log := [] }
        (some ((txt 0 "foo").setElm (some 0))) (some (txt 1 "bar"))
      = .ok (some ((txt 1 "bar").setElm (some 0)),
          { nodes := [{ kind := .text "bar", attrs := [], children := [], parent := none }],
            log := [.setTextContent 0 "bar"] }) :=
  patch_text_change_in_place 0
    { nodes := [{ kind := .text "foo", attrs := [], children := [], parent := none }], log := [] }
    ((txt 0 "foo").setElm (some 0)) (txt 1 "bar") 0
    { kind := .text "foo", attrs := [], children := [], parent := none } "foo" "bar" "foo"
    rfl rfl (by decide) rfl rfl rfl (by decide) rfl rfl rfl

/-- C11. Patching a tree against itself: for every tree `V` and every host,
`patch(V, V)` with one and the same object returns `V` as it was and the host
as it was, log included (no host call, no `elm` changed); so it does for the
tree and the host that a first call of `patch` returned. -/
theorem patch_same_object_is_noop (fuel : Nat) :
    (∀ (h : Host) (V : VNode), patch (fuel + 1) h (some V) (some V) = .ok (some V, h)) ∧
    (∀ (fuel1 : Nat) (h0 h1 : Host) (old : Option VNode) (new V1 : VNode),
      patch fuel1 h0 old (some new) = .ok (some V1, h1) →
      patch (fuel + 1) h1 (some V1) (some V1) = .ok (some V1, h1)) := by
  have key : ∀ (h : Host) (V : VNode),
      patch (fuel + 1) h (some V) (some V) = .ok (some V, h) := by
    intro h V
    obtain ⟨o, k, t, x, p, c, e⟩ := V
    simp [patch, sameVnode, patchVnode, VNode.key, VNode.tag, VNode.oid, VNode.elm,
      VNode.setElm]
  exact ⟨key, fun _ _ h1 _ _ V1 _ => key h1 V1⟩

/-- C11, at a first mount and a second call on the tree it returned. -/
theorem patch_same_object_is_noop_witness :
    patch 0 Host.empty none (some (el 0 "ul" 100 [li 1 "a", el 2 "p" 102 [txt 3 "hi"]]))
      = .ok (some mountedSample, mountedSampleHost) ∧
    patch 1 mountedSampleHost (some mountedSample) (some mountedSample)
      = .ok (some mountedSample, mountedSampleHost) :=
  ⟨rfl, (patch_same_object_is_noop 0).2 0 Host.empty mountedSampleHost none
    (el 0 "ul" 100 [li 1 "a", el 2 "p" 102 [txt 3 "hi"]]) mountedSample rfl⟩

/-- C12, as the claim has it, fails: a `div` with the props
`{ id: 'main', style: { color: 'red' } }` is mounted with the two host calls
`createElement` and `setAttribute(color, red)`; its host node carries the
attribute `color` and not the entry `id` of `props`. -/
theorem createElm_drops_props_entries :
    (createElm Host.empty (withProps 0 "div" mainProps)).toOption.map
        (fun r => ((r.2.node? 0).map HostNode.attrs, r.2.log))
      = some (some [("color", "red")],
          [.createElement 0 (some "div"), .setAttribute 0 "color" "red"]) ∧
    (createElm Host.empty (withProps 0 "div" mainProps)).toOption.map
        (fun r => (r.2.node? 0).map HostNode.attrs)
      ≠ some (some mainProps.attrs) := by
  refine ⟨?_, ?_⟩
  · decide!
  · decide!

/-- C12, amended. For every element node (no `text`) in which every tag and
every style name is a name and no object occurs twice, whose style names stay
pairwise distinct in lower case, and every host, `createElm` returns with `elm`
bound to a new host node, an element whose local name is the tag in lower case
and whose attributes are exactly the entries of the `style` object of `props`,
in order, each under its name in lower case; the other entries of `props` are
not applied. -/
theorem createElm_sets_style_as_attributes (h : Host) (v : VNode) (hel : v.text = none)
    (hval : validNames v = true) (hobj : distinctObjects v = true)
    (hkeys : ((styleOf v.props).map (fun kv => asciiLower kv.1)).Nodup) :
    ∃ v1 h1 x, createElm h v = .ok (v1, h1) ∧
      distinctObjects v1 = true ∧
      v1.elm = some h.nodes.length ∧ h1.node? h.nodes.length = some x ∧
      x.kind = .element (asciiLower (domString v.tag)) ∧
      x.attrs = (styleOf v.props).map (fun kv => (asciiLower kv.1, kv.2)) := by
  obtain ⟨o, k, t, x, p, c, e⟩ := v
  simp only [VNode.text] at hel
  subst hel
  obtain ⟨v1, h1, x1, hrun, helm, hn, hk, ha⟩ :=
    createElm_attrs_of_style h o k t p c e hval hkeys
  refine ⟨v1, h1, x1, hrun, ?_, helm, hn, hk, ha⟩
  rw [distinctObjects, ← oids_skeleton v1, (createElm_facts _ h).2 v1 h1 hrun, oids_skeleton]
  exact hobj

/-- C12, amended, at the `div` with the props `{ id: 'main', style: { fontSize:
'12px', color: 'red' } }` mounted on the empty host: the attributes of the
host node are `fontsize` and `color`. -/
theorem createElm_sets_style_as_attributes_witness :
    ∃ v1 h1 x, createElm Host.empty (withProps 0 "div" camelProps) = .ok (v1, h1) ∧
      distinctObjects v1 = true ∧
      v1.elm = some 0 ∧ h1.node? 0 = some x ∧
      x.kind = .element "div" ∧
      x.attrs = [("fontsize", "12px"), ("color", "red")] :=
  createElm_sets_style_as_attributes Host.empty (withProps 0 "div" camelProps) rfl rfl
    (by decide) (by decide)

/-- C13. The comparator: `sameVnode(a, b)` holds exactly when the keys are
equal and the tags are equal (absent counting as a value); it does not look at
`text`, `props`, `children`, `elm` or the object itself; two text nodes without
keys are the same node whatever their text; the relation is reflexive,
symmetric and transitive. -/
theorem sameVnode_iff_key_and_tag :
    (∀ a b : VNode, sameVnode a b = true ↔ (a.key = b.key ∧ a.tag = b.tag)) ∧
    (∀ (k t : Option String) (b : VNode) (o o1 : Nat) (x x1 : Option String)
        (p p1 : Option Props) (c c1 : Option (Nat × List VNode)) (e e1 : Option Nat),
      sameVnode (.mk o k t x p c e) b = sameVnode (.mk o1 k t x1 p1 c1 e1) b ∧
      sameVnode b (.mk o k t x p c e) = sameVnode b (.mk o1 k t x1 p1 c1 e1)) ∧
    (∀ (o o1 : Nat) (x x1 : Option String) (p p1 : Option Props)
        (c c1 : Option (Nat × List VNode)) (e e1 : Option Nat),
      sameVnode (.mk o none none x p c e) (.mk o1 none none x1 p1 c1 e1) = true) ∧
    (∀ a : VNode, sameVnode a a = true) ∧
    (∀ a b : VNode, sameVnode a b = sameVnode b a) ∧
    (∀ a b c : VNode, sameVnode a b = true → sameVnode b c = true → sameVnode a c = true) := by
  have hiff : ∀ a b : VNode, sameVnode a b = true ↔ (a.key = b.key ∧ a.tag = b.tag) := by
    intro a b
    simp [sameVnode]
  refine ⟨hiff, ?_, ?_, ?_, ?_, ?_⟩
  · intro k t b o o1 x x1 p p1 c c1 e e1
    exact ⟨rfl, rfl⟩
  · intro o o1 x x1 p p1 c c1 e e1
    simp [sameVnode, VNode.key, VNode.tag]
  · intro a
    simp [sameVnode]
  · intro a b
    simp only [sameVnode]
    rw [show decide (a.key = b.key) = decide (b.key = a.key) from by simp [eq_comm],
      show decide (a.tag = b.tag) = decide (b.tag = a.tag) from by simp [eq_comm]]
  · intro a b c hab hbc
    rw [hiff] at hab hbc ⊢
    exact ⟨hab.1.trans hbc.1, hab.2.trans hbc.2⟩

/-- C13, at three `li` nodes with the key `a`. -/
theorem sameVnode_iff_key_and_tag_witness :
    sameVnode (li 1 "a") (li 2 "a") = true ∧ sameVnode (li 2 "a") (li 3 "a") = true ∧
    sameVnode (li 1 "a") (li 3 "a") = true :=
  ⟨rfl, rfl, sameVnode_iff_key_and_tag.2.2.2.2.2 (li 1 "a") (li 2 "a") (li 3 "a") rfl rfl⟩

/-- C14. Old children `[A, B, C]` with keys `k1, k2, k3` (host nodes `1, 2, 3`),
new children `[B, C, A]`. The first iteration takes the branch guarded by
`sameVnode(oldStartVnode, newEndVnode)` and calls `patchVnode(oldEndVnode,
newStartVnode)`: the new `B` gets the host node `3` of the old `C`, a pair for
which `sameVnode` is false, and the matched new `A` is not patched. With old
children `div, p, span` keyed `x, k, y` and the new child `em` keyed `k`, the
key-index branch patches the old `p` against the new `em`, a pair with
different tags. -/
theorem patchVnode_called_on_unlike_pair :
    sameVnode (li 1 "k1") (li 11 "k1") = true ∧
    sameVnode (li 3 "k3") (li 12 "k2") = false ∧
    firstStep 5 (el 0 "ul" 100 [li 1 "k1", li 2 "k2", li 3 "k3"])
        (el 10 "ul" 101 [li 12 "k2", li 13 "k3", li 11 "k1"])
      = .ok { oldStartIdx := 1, oldEndIdx := 2, newStartIdx := 0, newEndIdx := 1,
              elms := [some 3, none, none], hostChildren := [2, 3, 1] } ∧
    sameVnode (keyed 2 "p" "k") (keyed 11 "em" "k") = false ∧
    firstStep 5 (el 0 "ul" 100 [keyed 1 "div" "x", keyed 2 "p" "k", keyed 3 "span" "y"])
        (el 10 "ul" 101 [keyed 11 "em" "k"])
      = .ok { oldStartIdx := 0, oldEndIdx := 2, newStartIdx := 1, newEndIdx := 0,
              elms := [some 2], hostChildren := [2, 1, 3] } := by
  refine ⟨?_, ?_, ?_, ?_, ?_⟩
  · decide!
  · decide!
  · decide!
  · decide!
  · decide!

/-- C15. Old children `[A, B, C, D]` with keys `a, b, c, d` (host nodes
`1, 2, 3, 4`), new children `[B]`: the key index finds the old `B`, which is
patched and moved to the front; its slot is not marked, and the final removal
goes over the slots `0, 1, 2`, taking out host node `2`, now bound to the new
`B`. The parent is left with host node `4` alone. -/
theorem updateChildren_removes_key_matched_node (n : Nat) :
    diffOutcome (20 + n) (el 0 "ul" 100 [li 1 "a", li 2 "b", li 3 "c", li 4 "d"])
        (el 10 "ul" 101 [li 12 "b"])
      = .ok { oldBound := true, bound := true, rootElm := some 0, elms := [some 2],
              hostChildren := [4],
              calls := [.insertBefore 0 2 (some 1), .removeChild 0 1, .removeChild 0 2,
                        .removeChild 0 3] } :=
  settles_ok (diffOutcome_settles 20 n _ _) (by decide!)

/-- C16. Old children `[A, C]` with keys `a, c` (host nodes `1, 2`), new
children `[A, X, Y, C]`: the scan ends with the old side used up and `X, Y`
left over; the reference node is read from `ch[newStartIdx + 1]`, the new `Y`,
which has no host node yet, so `X` and `Y` are appended: the host order is
`A, C, X, Y`. -/
theorem updateChildren_appends_leftover_new (n : Nat) :
    diffOutcome (20 + n) (el 0 "ul" 100 [li 1 "a", li 3 "c"])
        (el 10 "ul" 101 [li 11 "a", li 14 "x", li 15 "y", li 13 "c"])
      = .ok { oldBound := true, bound := true, rootElm := some 0,
              elms := [some 1, some 3, some 4, some 2], hostChildren := [1, 2, 3, 4],
              calls := [.createElement 3 (some "li"), .insertBefore 0 3 none,
                        .createElement 4 (some "li"), .insertBefore 0 4 none] } :=
  settles_ok (diffOutcome_settles 20 n _ _) (by decide!)

/-- C17. Children `[A, B]` with keys `a, b`, `beginIdx = 0`, `endIdx = 1`: the
index holds the key `a` alone; the entry at `endIdx` is left out, and a lookup
of `b` finds nothing. -/
theorem createKeyToOldIdx_leaves_out_endIdx :
    createKeyToOldIdx [li 1 "a", li 2 "b"] 0 1 = .ok [(some "a", 0)] ∧
    mapGet [(some "a", 0)] (li 2 "b").key = none := by
  refine ⟨?_, ?_⟩
  · decide!
  · decide!

/-- C18. For the old child array `[A, undefined]` and the new child array
`[X]`, at the entry of the loop `oldStartVnode` is present and `oldEndVnode`
absent: the iteration moves `oldStartIdx` from `0` to `-1` and leaves
`oldEndIdx` at `1` (no host call is made); the slot at `oldEndIdx` stays
absent, and the loop does not end, whatever the fuel. -/
theorem whileStep_absent_end_moves_oldStart :
    (whileStep (patchVnode 1) (some 0) [li 1 "a"] absentEndEntry).map Loop.view
      = .ok { oldStartIdx := -1, oldEndIdx := 1, newStartIdx := 0, newEndIdx := 0,
              elms := [none], hostChildren := [] } ∧
    (whileStep (patchVnode 1) (some 0) [li 1 "a"] absentEndEntry).map (fun st => st.host.log)
      = .ok [] ∧
    ∀ fuel : Nat,
      whileLoop fuel (some 0) [li 1 "a"] absentEndEntry = .error .outOfFuel := by
  refine ⟨?_, ?_, ?_⟩
  · decide!
  · decide!
  · intro fuel
    exact absentEnd_never_ends fuel 0

/-- C19. The diff terminates. When the old child array has no absent entry the
variables of the loop satisfy `LoopInv` from the entry on, and every iteration
that reaches its end strictly decreases `(oldEndIdx - oldStartIdx) + (newEndIdx -
newStartIdx)` and keeps `LoopInv`; for all child lists `updateChildren`, and for
all trees `patch`, gives one and the same answer, which is not running out of
fuel, for all fuel from some bound on. -/
theorem updateChildren_and_patch_terminate :
    (∀ (h : Host) (oldCh ch : List VNode), LoopInv oldCh (Loop.init h oldCh ch)) ∧
    (∀ (pv : Host → VNode → VNode → Except Err (VNode × Host)) (p : Option Nat)
        (oldCh : List VNode) (st st1 : Loop),
      LoopInv oldCh st → st.running = true → whileStep pv p oldCh st = .ok st1 →
      st1.measure < st.measure ∧ LoopInv oldCh st1) ∧
    (∀ (h : Host) (p : Option Nat) (oldCh ch : List VNode),
      ∃ F r, r ≠ .error .outOfFuel ∧ ∀ f, F ≤ f → updateChildren f h p oldCh ch = r) ∧
    (∀ (h : Host) (old new : Option VNode),
      ∃ F r, r ≠ .error .outOfFuel ∧ ∀ f, F ≤ f → patch f h old new = r) := by
  refine ⟨loopInv_init, ?_, ?_, ?_⟩
  · intro pv p oldCh st st1 hinv hrun hs
    obtain ⟨hlt, hinv1, _⟩ := (whileStep_facts pv p oldCh st hinv hrun).2 st1 hs
    exact ⟨hlt, hinv1⟩
  · intro h p oldCh ch
    have hF := updateChildren_fuel_enough (weights oldCh + weights ch + 1) h p oldCh ch
      (le_refl _)
    refine ⟨weights oldCh + weights ch + 1, _, hF, fun f hf => ?_⟩
    obtain ⟨n, rfl⟩ : ∃ n, f = weights oldCh + weights ch + 1 + n :=
      ⟨f - (weights oldCh + weights ch + 1), by omega⟩
    exact settles_eq (updateChildren_settles _ n h p oldCh ch) hF
  · intro h old new
    obtain ⟨F, hF⟩ : ∃ F, ∀ o v, old = some o → new = some v → weight o + weight v ≤ F := by
      cases old with
      | none => exact ⟨0, fun o v ho _ => by cases ho⟩
      | some o =>
        cases new with
        | none => exact ⟨0, fun o v _ hv => by cases hv⟩
        | some v =>
          refine ⟨weight o + weight v, fun o1 v1 ho hv => ?_⟩
          cases ho
          cases hv
          exact le_refl _
    have hne := patch_fuel_enough F h old new hF
    refine ⟨F, _, hne, fun f hf => ?_⟩
    obtain ⟨n, rfl⟩ : ∃ n, f = F + n := ⟨f - F, by omega⟩
    exact settles_eq (patch_settles F n h old new) hne

/-- C19, at the first iteration for the old children `[A, B]` and the new
children `[A]`: the quantity goes from `1` to `-1`. -/
theorem updateChildren_and_patch_terminate_witness :
    LoopInv [li 1 "a", li 2 "b"] (Loop.init Host.empty [li 1 "a", li 2 "b"] [li 11 "a"]) ∧
    (Loop.init Host.empty [li 1 "a", li 2 "b"] [li 11 "a"]).running = true ∧
    (Loop.init Host.empty [li 1 "a", li 2 "b"] [li 11 "a"]).measure = 1 ∧
    ∃ st1, whileStep (patchVnode 1) (some 0) [li 1 "a", li 2 "b"]
        (Loop.init Host.empty [li 1 "a", li 2 "b"] [li 11 "a"]) = .ok st1 ∧
      st1.measure = -1 ∧
      st1.measure < (Loop.init Host.empty [li 1 "a", li 2 "b"] [li 11 "a"]).measure ∧
      LoopInv [li 1 "a", li 2 "b"] st1 :=
  ⟨updateChildren_and_patch_terminate.1 _ _ _, rfl, rfl, _, rfl, rfl,
    updateChildren_and_patch_terminate.2.1 (patchVnode 1) (some 0) _ _ _
      (updateChildren_and_patch_terminate.1 _ _ _) rfl rfl⟩

/-- C20. Patching against a structurally equal copy: for every host, every old
tree and every new tree that meets the invariant of the data model and is a
copy of the old one made of other objects (same key, tag and text and a child
array of the same length at every position), `patch(old, new)` returns, for
all fuel from some bound on, the new tree with the `elm` of every node taken
from the old node at the same position, and the host as it was, log included:
no host call is made. -/
theorem patch_copy_is_silent (h : Host) (old new : VNode) (hcopy : copyOf old new = true)
    (hwf : wellFormed new = true) :
    ∃ F, ∀ f, F ≤ f → patch f h (some old) (some new) = .ok (some (bindFrom old new), h) := by
  obtain ⟨F, hF⟩ := copy_patchVnode old new h hcopy hwf
  refine ⟨F, fun f hf => ?_⟩
  simp [patch, copyOf_sameVnode old new hcopy, hF f hf]

/-- C20, at the mounted tree `ul[li(key a), p[text hi]]` and a copy of it. -/
theorem patch_copy_is_silent_witness :
    patch 0 Host.empty none (some (el 0 "ul" 100 [li 1 "a", el 2 "p" 102 [txt 3 "hi"]]))
      = .ok (some mountedSample, mountedSampleHost) ∧
    copyOf mountedSample (el 10 "ul" 101 [li 11 "a", el 12 "p" 103 [txt 13 "hi"]]) = true ∧
    wellFormed (el 10 "ul" 101 [li 11 "a", el 12 "p" 103 [txt 13 "hi"]]) = true ∧
    ∃ F, ∀ f, F ≤ f →
      patch f mountedSampleHost (some mountedSample)
          (some (el 10 "ul" 101 [li 11 "a", el 12 "p" 103 [txt 13 "hi"]]))
        = .ok (some (bindFrom mountedSample
            (el 10 "ul" 101 [li 11 "a", el 12 "p" 103 [txt 13 "hi"]])), mountedSampleHost) :=
  ⟨rfl, rfl, rfl,
    patch_copy_is_silent mountedSampleHost mountedSample
      (el 10 "ul" 101 [li 11 "a", el 12 "p" 103 [txt 13 "hi"]]) rfl rfl⟩

end SimpleVirtualDOM
